import Mathlib

/-!
Shallow embedding of the gomoji emoji-conversion library.

Strings are modelled at code-point level as `List Char` (Go strings are
UTF-8 byte sequences; all patterns used by the library are sequences of
whole code points, and UTF-8 is self-synchronizing, so code-point level
substring/replacement semantics coincide with Go's byte-level ones for the
operations used here).  Go maps are modelled as association lists where an
insert prepends, so a lookup (first match from the head) sees the most
recent insert, matching Go's overwrite-on-assign semantics.
-/

set_option autoImplicit false

namespace Gomoji

/-- A Go string at code-point granularity. -/
abbrev Str : Type := List Char

/-- Lookup in an association list used as a Go map: the first entry from the
head wins, so prepending models Go's `m[k] = v` overwrite. -/
def lookupA {α : Type} : List (Str × α) → Str → Option α
  | [], _ => none
  | (k, v) :: rest, key => if k = key then some v else lookupA rest key

/-- `Mapping` from the source: all possible formats for a single emoji. -/
structure Mapping where
  Emoji : Str
  Shortcode : Str
  HTML : Str
  Unicode : Str
deriving DecidableEq, Repr

/-- The catalog type: the `emojiMappings` map, name to record. -/
abbrev Catalog : Type := List (Str × Mapping)

/-- The character set trimmed by Go's `strings.TrimSpace` (Unicode White_Space). -/
def isGoSpace (c : Char) : Bool :=
  c = ' ' || c = '\t' || c = '\n' || c = '\x0b' || c = '\x0c' || c = '\r' ||
  c = '\u0085' || c = '\u00A0' || c = '\u1680' ||
  ('\u2000' ≤ c && c ≤ '\u200A') ||
  c = '\u2028' || c = '\u2029' || c = '\u202F' || c = '\u205F' || c = '\u3000'

/-- Go `strings.TrimSpace`. -/
def trimSpace (s : Str) : Str :=
  ((s.dropWhile isGoSpace).reverse.dropWhile isGoSpace).reverse

/-- Go `strings.Contains s pat` (pattern given first here). -/
def occurs (pat : Str) : Str → Bool
  | [] => pat.isEmpty
  | c :: t => pat.isPrefixOf (c :: t) || occurs pat t

/-- Go `strings.HasSuffix s suf` (suffix given first here). -/
def endsWith (suf s : Str) : Bool :=
  suf.reverse.isPrefixOf s.reverse

/-- Go `strings.Replace s pat rep 1`: replace the first occurrence only
(with Go's convention that an empty pattern inserts at the start). -/
def replaceFirst : Str → Str → Str → Str
  | [], pat, rep => if pat = [] then rep else []
  | c :: t, pat, rep =>
    if pat = [] then rep ++ c :: t
    else if pat.isPrefixOf (c :: t) then rep ++ (c :: t).drop pat.length
    else c :: replaceFirst t pat rep

/-- Helper for `replaceAll` with an empty pattern: Go inserts the
replacement at the start and after every code point. -/
def interAll (rep : Str) : Str → Str
  | [] => rep
  | c :: t => rep ++ c :: interAll rep t

/-- Go `strings.ReplaceAll` for a non-empty pattern `p :: ps`: leftmost,
non-overlapping, continuing after each replacement.  The `Nat` argument is
recursion fuel (one unit per consumed character); it is initialized to the
string length, which always suffices, and is irrelevant beyond it. -/
def replaceAllGo (p : Char) (ps rep : Str) : Nat → Str → Str
  | _, [] => []
  | 0, s => s
  | Nat.succ n, c :: t =>
    if (p :: ps).isPrefixOf (c :: t) then rep ++ replaceAllGo p ps rep n (t.drop ps.length)
    else c :: replaceAllGo p ps rep n t

/-- Go `strings.ReplaceAll` for a non-empty pattern. -/
def replaceAllNE (p : Char) (ps rep : Str) (s : Str) : Str :=
  replaceAllGo p ps rep s.length s

/-- Go `strings.ReplaceAll s pat rep`. -/
def replaceAll (s pat rep : Str) : Str :=
  match pat with
  | [] => interAll rep s
  | p :: ps => replaceAllNE p ps rep s

/-- The literal variation-selector character U+FE0F. -/
def vsChar : Char := '\uFE0F'

/-- The HTML entity form of the variation selector, `&#xfe0f;`. -/
def vsEntity : Str := "&#xfe0f;".toList

/-- The escape form of the variation selector as it appears in records:
the six characters backslash, u, F, E, 0, F. -/
def vsEscape : Str := "\\uFE0F".toList

/-- The HTML entity marker `&#x`. -/
def htmlEntityStart : Str := "&#x".toList

/-- The four reverse indices built by `init` in mappings.go. -/
structure Maps where
  emojiToName : List (Str × Str)
  shortcodeToName : List (Str × Str)
  htmlToName : List (Str × Str)
  unicodeToName : List (Str × Str)
deriving Repr

/-- One iteration of the loop body of `init` in mappings.go: register the
four canonical keys and, for variation-selector emoji, the synthetic base
and hybrid keys.  Entries are prepended, so a later insert shadows an
earlier one, exactly like Go's map assignment. -/
def initStep (acc : Maps) (e : Str × Mapping) : Maps :=
  let name := e.1
  let mapping := e.2
  let acc : Maps :=
    { acc with
      emojiToName := (mapping.Emoji, name) :: acc.emojiToName
      shortcodeToName := (mapping.Shortcode, name) :: acc.shortcodeToName
      htmlToName := (mapping.HTML, name) :: acc.htmlToName
      unicodeToName := (mapping.Unicode, name) :: acc.unicodeToName }
  let acc : Maps :=
    if occurs vsEntity mapping.HTML then
      let htmlBase := replaceFirst mapping.HTML vsEntity []
      let hybridHTML := htmlBase ++ [vsChar]
      { acc with htmlToName := (hybridHTML, name) :: (htmlBase, name) :: acc.htmlToName }
    else acc
  if occurs vsEscape mapping.Unicode then
    { acc with unicodeToName := (replaceFirst mapping.Unicode vsEscape [], name) :: acc.unicodeToName }
  else acc

/-- The whole of `init` in mappings.go.  Go iterates `emojiMappings` in an
unspecified map order; the embedding fixes the catalog's list order as that
iteration order. -/
def initMaps (cat : Catalog) : Maps :=
  cat.foldl initStep ⟨[], [], [], []⟩

/-- The key used for the hybrid-HTML retry in `findEmojiName`:
`strings.Replace(input, vs, "&#xfe0f;", 1)` rewrites the FIRST occurrence
of the literal variation selector. -/
def hybridKey (input : Str) : Str :=
  replaceFirst input [vsChar] vsEntity

/-- `findEmojiName` from the source: try each interpretation of the input in
the fixed order name, emoji character, shortcode, HTML, hybrid HTML,
unicode escape, colon-wrapped shortcode; empty string means not found. -/
def findEmojiName (cat : Catalog) (maps : Maps) (input0 : Str) : Str :=
  let input := trimSpace input0
  if (lookupA cat input).isSome then input
  else match lookupA maps.emojiToName input with
  | some name => name
  | none => match lookupA maps.shortcodeToName input with
    | some name => name
    | none => match lookupA maps.htmlToName input with
      | some name => name
      | none =>
        match (if occurs htmlEntityStart input && endsWith [vsChar] input then
                 lookupA maps.htmlToName (hybridKey input)
               else none) with
        | some name => name
        | none => match lookupA maps.unicodeToName input with
          | some name => name
          | none => match lookupA maps.shortcodeToName (':' :: input ++ [':']) with
            | some name => name
            | none => []

/-- The `Format` constants; Go's `Format` is a string type, so arbitrary
format values are arbitrary strings. -/
def FormatEmoji : String := "emoji"

/-- The shortcode format constant. -/
def FormatShortcode : String := "shortcode"

/-- The HTML format constant. -/
def FormatHTML : String := "html"

/-- The unicode escape-sequence format constant. -/
def FormatUnicode : String := "unicode"

/-- The distinct error values `Transform` can produce, one per
`fmt.Errorf` site in the source. -/
inductive TransformError where
  | invalidFormat
  | notFound
  | mappingNotFound
  | unexpectedFormat
deriving DecidableEq, Repr

/-- Whether the target format passes the validation switch in `Transform`. -/
def validFormat (f : String) : Prop :=
  f = FormatEmoji ∨ f = FormatShortcode ∨ f = FormatHTML ∨ f = FormatUnicode

instance (f : String) : Decidable (validFormat f) := by
  unfold validFormat; infer_instance

/-- `Transform` from the source: validate the target format, resolve the
input to a canonical name, look the record up and project the requested
field. -/
def Transform (cat : Catalog) (maps : Maps) (input : Str) (targetFormat : String) :
    Except TransformError Str :=
  if validFormat targetFormat then
    let emojiName := findEmojiName cat maps input
    if emojiName = [] then .error .notFound
    else match lookupA cat emojiName with
    | none => .error .mappingNotFound
    | some mapping =>
      if targetFormat = FormatEmoji then .ok mapping.Emoji
      else if targetFormat = FormatShortcode then .ok mapping.Shortcode
      else if targetFormat = FormatHTML then .ok mapping.HTML
      else if targetFormat = FormatUnicode then .ok mapping.Unicode
      else .error .unexpectedFormat
  else .error .invalidFormat

/-- `IsSupported` from the source. -/
def IsSupported (cat : Catalog) (maps : Maps) (input : Str) : Bool :=
  findEmojiName cat maps input ≠ []

/-- Character class of the shortcode regexp `[a-zA-Z_]`. -/
def isWordChar (c : Char) : Bool :=
  ('a' ≤ c && c ≤ 'z') || ('A' ≤ c && c ≤ 'Z') || c = '_'

/-- Character class of the HTML-entity regexp `[0-9a-fA-F]`. -/
def isHexDigit (c : Char) : Bool :=
  ('0' ≤ c && c ≤ '9') || ('a' ≤ c && c ≤ 'f') || ('A' ≤ c && c ≤ 'F')

/-- The length of `dropWhile` output never exceeds the input's. -/
theorem length_dropWhile_le (p : Char → Bool) (l : Str) :
    (l.dropWhile p).length ≤ l.length :=
  (List.dropWhile_suffix p).length_le

/-- Try to match the shortcode pattern `:[a-zA-Z_]+:` at the head of the
string, returning the matched text and the remainder after the closing
colon. -/
def matchSC : Str → Option (Str × Str)
  | ':' :: rest =>
    match rest.dropWhile isWordChar with
    | ':' :: tail =>
      if rest.takeWhile isWordChar = [] then none
      else some (':' :: rest.takeWhile isWordChar ++ [':'], tail)
    | _ => none
  | _ => none

/-- A successful `matchSC` consumes at least one character. -/
theorem matchSC_length {s m tail : Str} (h : matchSC s = some (m, tail)) :
    tail.length < s.length := by
  unfold matchSC at h
  split at h
  next rest =>
    split at h
    next heq =>
      split at h
      · exact absurd h (by simp)
      · simp only [Option.some.injEq, Prod.mk.injEq] at h
        obtain ⟨-, rfl⟩ := h
        have h1 := length_dropWhile_le isWordChar rest
        rw [heq] at h1
        simp only [List.length_cons] at h1 ⊢
        omega
    next => exact absurd h (by simp)
  next => exact absurd h (by simp)

/-- `regexp.ReplaceAllStringFunc` with the shortcode pattern
`:[a-zA-Z_]+:`: scan left to right; at each position, if a match of the
pattern starts there, apply `f` to it and resume after its closing colon
(leftmost, non-overlapping matching).  The `Nat` argument is recursion
fuel (at least one character is consumed per step, so the string length
always suffices). -/
def scanSCGo (f : Str → Str) : Nat → Str → Str
  | _, [] => []
  | 0, s => s
  | Nat.succ n, c :: rest =>
    match matchSC (c :: rest) with
    | some (m, tail) => f m ++ scanSCGo f n tail
    | none => c :: scanSCGo f n rest

/-- The shortcode-pattern scan-and-replace. -/
def scanSC (f : Str → Str) (s : Str) : Str :=
  scanSCGo f s.length s

/-- The list of matches the shortcode scan visits, in order (same recursion
structure as `scanSC`), with fuel. -/
def scMatchesGo : Nat → Str → List Str
  | _, [] => []
  | 0, _ => []
  | Nat.succ n, c :: rest =>
    match matchSC (c :: rest) with
    | some (m, tail) => m :: scMatchesGo n tail
    | none => scMatchesGo n rest

/-- The list of matches the shortcode scan visits, in order. -/
def scMatches (s : Str) : List Str :=
  scMatchesGo s.length s

/-- Parse one HTML entity `&#x<hex>+;` at the head of the string, returning
the matched text and the remainder. -/
def parseEntity : Str → Option (Str × Str)
  | '&' :: '#' :: 'x' :: t =>
    match t.dropWhile isHexDigit with
    | ';' :: rest =>
      if t.takeWhile isHexDigit = [] then none
      else some ('&' :: '#' :: 'x' :: (t.takeWhile isHexDigit ++ [';']), rest)
    | _ => none
  | _ => none

/-- A successful `parseEntity` consumes at least one character. -/
theorem parseEntity_length {s m rest : Str} (h : parseEntity s = some (m, rest)) :
    rest.length < s.length := by
  unfold parseEntity at h
  split at h
  next t =>
    split at h
    next heq =>
      split at h
      · exact absurd h (by simp)
      · simp only [Option.some.injEq, Prod.mk.injEq] at h
        obtain ⟨-, rfl⟩ := h
        have h1 := length_dropWhile_le isHexDigit t
        rw [heq] at h1
        simp only [List.length_cons] at h1 ⊢
        omega
    next => exact absurd h (by simp)
  next => exact absurd h (by simp)

/-- Parse a maximal run of one or more consecutive HTML entities (the
greedy `&#x<hex>+;(?:&#x<hex>+;)*` match) at the head of the string,
with recursion fuel (one unit per parsed entity; the string length always
suffices since every entity is non-empty). -/
def parseRunGo : Nat → Str → Option (Str × Str)
  | _, [] => none
  | 0, _ => none
  | Nat.succ n, s =>
    match parseEntity s with
    | none => none
    | some (m, rest) =>
      match parseRunGo n rest with
      | none => some (m, rest)
      | some (m2, rest2) => some (m ++ m2, rest2)

/-- Parse a maximal run of one or more consecutive HTML entities at the
head of the string. -/
def parseRun (s : Str) : Option (Str × Str) :=
  parseRunGo s.length s

/-- The fuel of `parseRunGo` is irrelevant once it reaches the string
length. -/
theorem parseRunGo_irrel : ∀ (n n' : Nat) (s : Str), s.length ≤ n → s.length ≤ n' →
    parseRunGo n s = parseRunGo n' s := by
  intro n
  induction n with
  | zero =>
    intro n' s hs _
    match s with
    | [] => cases n' <;> rfl
    | c :: t => simp at hs
  | succ n ih =>
    intro n' s hs hs'
    match s with
    | [] => cases n' <;> rfl
    | c :: t =>
      match n', hs' with
      | Nat.succ n', hs' =>
        show (match parseEntity (c :: t) with
              | none => none
              | some (m, rest) =>
                match parseRunGo n rest with
                | none => some (m, rest)
                | some (m2, rest2) => some (m ++ m2, rest2)) =
            (match parseEntity (c :: t) with
              | none => none
              | some (m, rest) =>
                match parseRunGo n' rest with
                | none => some (m, rest)
                | some (m2, rest2) => some (m ++ m2, rest2))
        cases heq : parseEntity (c :: t) with
        | none => rfl
        | some p =>
          obtain ⟨m, rest⟩ := p
          have hlen := parseEntity_length heq
          simp only [List.length_cons] at hlen hs hs'
          show (match parseRunGo n rest with
                | none => some (m, rest)
                | some (m2, rest2) => some (m ++ m2, rest2)) =
              (match parseRunGo n' rest with
                | none => some (m, rest)
                | some (m2, rest2) => some (m ++ m2, rest2))
          rw [ih n' rest (by omega) (by omega)]

/-- The unfolding equation of `parseRun` as a plain match. -/
theorem parseRun_eq (s : Str) : parseRun s =
    match parseEntity s with
    | none => none
    | some (m, rest) =>
      match parseRun rest with
      | none => some (m, rest)
      | some (m2, rest2) => some (m ++ m2, rest2) := by
  match s with
  | [] => rfl
  | c :: t =>
    cases heq : parseEntity (c :: t) with
    | none =>
      show parseRunGo (t.length + 1) (c :: t) = _
      simp only [parseRunGo, heq]
    | some p =>
      obtain ⟨m, rest⟩ := p
      have hlen := parseEntity_length heq
      simp only [List.length_cons] at hlen
      have hIr : parseRunGo t.length rest = parseRun rest :=
        parseRunGo_irrel t.length rest.length rest (by omega) le_rfl
      show parseRunGo (t.length + 1) (c :: t) = _
      simp only [parseRunGo, heq, hIr]

/-- `parseRun` on a string with no entity at its head fails. -/
theorem parseRun_none {s : Str} (h : parseEntity s = none) : parseRun s = none := by
  rw [parseRun_eq, h]

/-- `parseRun` after one successful entity parse. -/
theorem parseRun_some {s m rest : Str} (h : parseEntity s = some (m, rest)) :
    parseRun s =
      match parseRun rest with
      | none => some (m, rest)
      | some (m2, rest2) => some (m ++ m2, rest2) := by
  rw [parseRun_eq, h]

/-- A successful `parseRun` consumes at least one character (bounded
induction helper). -/
theorem parseRun_length_aux : ∀ (n : Nat) (s : Str), s.length ≤ n →
    ∀ {m rest : Str}, parseRun s = some (m, rest) → rest.length < s.length := by
  intro n
  induction n with
  | zero =>
    intro s hs m rest h
    match s with
    | [] => exact absurd h (by simp [parseRun, parseRunGo])
    | c :: tl => simp at hs
  | succ n ih =>
    intro s hs m rest h
    cases heq : parseEntity s with
    | none => rw [parseRun_none heq] at h; exact absurd h (by simp)
    | some p =>
      obtain ⟨m1, r1⟩ := p
      rw [parseRun_some heq] at h
      have h1 := parseEntity_length heq
      cases hrun : parseRun r1 with
      | none =>
        rw [hrun] at h
        simp only [Option.some.injEq, Prod.mk.injEq] at h
        obtain ⟨-, rfl⟩ := h
        exact h1
      | some q =>
        obtain ⟨m2, r2⟩ := q
        rw [hrun] at h
        simp only [Option.some.injEq, Prod.mk.injEq] at h
        obtain ⟨-, rfl⟩ := h
        have h2 := ih r1 (by omega) hrun
        omega

/-- A successful `parseRun` consumes at least one character. -/
theorem parseRun_length {s m rest : Str} (h : parseRun s = some (m, rest)) :
    rest.length < s.length :=
  parseRun_length_aux s.length s le_rfl h

/-- `regexp.ReplaceAllStringFunc` with the HTML-entity pattern: at each
position try to match a maximal run of entities; on a match apply `f` and
resume after the run.  With recursion fuel as for `scanSCGo`. -/
def scanHTMLGo (f : Str → Str) : Nat → Str → Str
  | _, [] => []
  | 0, s => s
  | Nat.succ n, c :: rest =>
    match parseRun (c :: rest) with
    | some (m, tail) => f m ++ scanHTMLGo f n tail
    | none => c :: scanHTMLGo f n rest

/-- The HTML-entity-run scan-and-replace. -/
def scanHTML (f : Str → Str) (s : Str) : Str :=
  scanHTMLGo f s.length s

/-- The list of matches the HTML-entity scan visits, in order, with fuel. -/
def htmlMatchesGo : Nat → Str → List Str
  | _, [] => []
  | 0, _ => []
  | Nat.succ n, c :: rest =>
    match parseRun (c :: rest) with
    | some (m, tail) => m :: htmlMatchesGo n tail
    | none => htmlMatchesGo n rest

/-- The list of matches the HTML-entity scan visits, in order. -/
def htmlMatches (s : Str) : List Str :=
  htmlMatchesGo s.length s

/-- The iteration of `for emoji, name := range emojiToName`: the distinct
keys of the association list with their current (most recent) values, in
the list's order.  Go's map iteration order is unspecified; this fixes one. -/
def dedupKeys : List (Str × Str) → List (Str × Str)
  | [] => []
  | (k, v) :: rest => (k, v) :: (dedupKeys rest).filter (fun p => ¬ p.1 = k)

/-- One step of the literal-character pass of `TransformText`. -/
def charStep (cat : Catalog) (maps : Maps) (targetFormat : String) (res : Str)
    (e : Str × Str) : Str :=
  if occurs e.1 res then
    match Transform cat maps e.2 targetFormat with
    | .error _ => res
    | .ok transformed => replaceAll res e.1 transformed
  else res

/-- The literal-character pass of `TransformText`: for every entry of the
`emojiToName` index whose key occurs in the text, replace all occurrences
with the transformed value (skipping the entry on a transform error). -/
def charPass (cat : Catalog) (maps : Maps) (targetFormat : String) (text : Str) : Str :=
  (dedupKeys maps.emojiToName).foldl (charStep cat maps targetFormat) text

/-- The per-match function of the shortcode pass: replace a known shortcode
with its transform, keep the original on lookup failure or transform error. -/
def scReplace (cat : Catalog) (maps : Maps) (targetFormat : String) (m : Str) : Str :=
  match lookupA maps.shortcodeToName m with
  | some name =>
    match Transform cat maps name targetFormat with
    | .error _ => m
    | .ok transformed => transformed
  | none => m

/-- The per-match function of the HTML-entity pass. -/
def htmlReplace (cat : Catalog) (maps : Maps) (targetFormat : String) (m : Str) : Str :=
  match lookupA maps.htmlToName m with
  | some name =>
    match Transform cat maps name targetFormat with
    | .error _ => m
    | .ok transformed => transformed
  | none => m

/-- The shortcode pass of `TransformText`. -/
def shortcodePass (cat : Catalog) (maps : Maps) (targetFormat : String) (text : Str) : Str :=
  scanSC (scReplace cat maps targetFormat) text

/-- The HTML-entity pass of `TransformText`. -/
def htmlPass (cat : Catalog) (maps : Maps) (targetFormat : String) (text : Str) : Str :=
  scanHTML (htmlReplace cat maps targetFormat) text

/-- `TransformText` from the source: the three passes in their fixed order,
each operating on the previous pass's output. -/
def TransformText (cat : Catalog) (maps : Maps) (text : Str) (targetFormat : String) : Str :=
  htmlPass cat maps targetFormat
    (shortcodePass cat maps targetFormat
      (charPass cat maps targetFormat text))

/-- Modelled from the spec: the emoji catalog `emojiMappings` (its data file
is not part of the provided sources; only its uses are).  A representative
catalog following the spec's data-model invariants (§3: unique names, all
four fields non-empty, every field encoding the same code points) and its
named examples: the §8 scenario emoji (smile, wink, thumbs_up, heart), the
variation-selector emoji of §3/§8 (canonical HTML `&#xXXXX;&#xfe0f;`), and
a record whose shortcode diverges from `:<name>:` plus a name that is
another record's colon-less shortcode, both explicitly allowed by §3 and
exercised by §4.2's resolution-order rules. -/
def emojiMappings : Catalog :=
  [ ("smile".toList, ⟨[Char.ofNat 0x1F604], ":smile:".toList, "&#x1f604;".toList, "\\U0001F604".toList⟩)
  , ("wink".toList, ⟨[Char.ofNat 0x1F609], ":wink:".toList, "&#x1f609;".toList, "\\U0001F609".toList⟩)
  , ("blush".toList, ⟨[Char.ofNat 0x1F60A], ":blush:".toList, "&#x1f60a;".toList, "\\U0001F60A".toList⟩)
  , ("thumbs_up".toList, ⟨[Char.ofNat 0x1F44D], ":thumbs_up:".toList, "&#x1f44d;".toList, "\\U0001F44D".toList⟩)
  , ("sparkles".toList, ⟨[Char.ofNat 0x2728], ":sparkles:".toList, "&#x2728;".toList, "\\U00002728".toList⟩)
  , ("rainbow".toList, ⟨[Char.ofNat 0x1F308], ":rainbow:".toList, "&#x1f308;".toList, "\\U0001F308".toList⟩)
  , ("fire".toList, ⟨[Char.ofNat 0x1F525], ":fire:".toList, "&#x1f525;".toList, "\\U0001F525".toList⟩)
  , ("computer".toList, ⟨[Char.ofNat 0x1F4BB], ":computer:".toList, "&#x1f4bb;".toList, "\\U0001F4BB".toList⟩)
  , ("heart".toList, ⟨[Char.ofNat 0x2764, vsChar], ":heart:".toList, "&#x2764;&#xfe0f;".toList, "\\U00002764\\uFE0F".toList⟩)
  , ("microphone".toList, ⟨[Char.ofNat 0x1F399, vsChar], ":microphone:".toList, "&#x1f399;&#xfe0f;".toList, "\\U0001F399\\uFE0F".toList⟩)
  , ("keyboard".toList, ⟨[Char.ofNat 0x2328, vsChar], ":keyboard:".toList, "&#x2328;&#xfe0f;".toList, "\\U00002328\\uFE0F".toList⟩)
  , ("desktop_computer".toList, ⟨[Char.ofNat 0x1F5A5, vsChar], ":desktop_computer:".toList, "&#x1f5a5;&#xfe0f;".toList, "\\U0001F5A5\\uFE0F".toList⟩)
  , ("sun".toList, ⟨[Char.ofNat 0x2600, vsChar], ":sunny:".toList, "&#x2600;&#xfe0f;".toList, "\\U00002600\\uFE0F".toList⟩)
  , ("sunny".toList, ⟨[Char.ofNat 0x1F31E], ":sun_with_face:".toList, "&#x1f31e;".toList, "\\U0001F31E".toList⟩)
  , ("call_me".toList, ⟨[Char.ofNat 0x1F919], ":call-me:".toList, "&#x1f919;".toList, "\\U0001F919".toList⟩)
  ]

/-- The reverse indices of the modelled catalog, as built once by `init`. -/
def gomojiMaps : Maps := initMaps emojiMappings

/-- The four valid `Format` values, as a list. -/
def allFormats : List String :=
  [FormatEmoji, FormatShortcode, FormatHTML, FormatUnicode]

/-- A two-record catalog exhibiting a synthetic-key collision: the later
record's derived base key equals the earlier record's canonical HTML key
(the earlier record is the base-variant emoji registered in its own
right). -/
def collisionCatalog : Catalog :=
  [ ("b".toList, ⟨[Char.ofNat 0x1F399], ":b:".toList, "&#x1f399;".toList, "\\U0001F399".toList⟩)
  , ("a".toList, ⟨[Char.ofNat 0x1F399, vsChar], ":a:".toList, "&#x1f399;&#xfe0f;".toList,
      "\\U0001F399\\uFE0F".toList⟩) ]

/-- Whether `TransformText` can recognize any occurrence in the text: a
catalog emoji character occurring as a substring, a shortcode-pattern
match that is a known shortcode key, or an HTML-entity run that is a known
HTML key. -/
def hasEmojiOccurrence (maps : Maps) (text : Str) : Bool :=
  (dedupKeys maps.emojiToName).any (fun p => occurs p.1 text) ||
  (scMatches text).any (fun m => (lookupA maps.shortcodeToName m).isSome) ||
  (htmlMatches text).any (fun m => (lookupA maps.htmlToName m).isSome)

/-! ### Basic lemmas about the embedded primitives -/

/-- A successful association-list lookup returns an entry of the list. -/
theorem lookupA_mem {α : Type} {m : List (Str × α)} {k : Str} {v : α}
    (h : lookupA m k = some v) : (k, v) ∈ m := by
  induction m with
  | nil => simp [lookupA] at h
  | cons p rest ih =>
    obtain ⟨k', v'⟩ := p
    simp only [lookupA] at h
    split at h
    next heq =>
      simp only [Option.some.injEq] at h
      subst heq; subst h
      exact List.mem_cons_self _ _
    next => exact List.mem_cons_of_mem _ (ih h)

/-- A left fold whose step fixes the accumulator on every list element
leaves the accumulator unchanged. -/
theorem foldl_fixed {α β : Type} {g : β → α → β} {b : β} {l : List α}
    (h : ∀ e ∈ l, g b e = b) : l.foldl g b = b := by
  induction l with
  | nil => rfl
  | cons e t ih =>
    simp only [List.foldl_cons, h e (List.mem_cons_self _ _)]
    exact ih fun x hx => h x (List.mem_cons_of_mem _ hx)

/-- If every reverse-index value is a catalog key, a non-empty resolver
result is a catalog key. -/
theorem findEmojiName_isSome {cat : Catalog} {maps : Maps} {input : Str}
    (he : ∀ p ∈ maps.emojiToName, (lookupA cat p.2).isSome)
    (hs : ∀ p ∈ maps.shortcodeToName, (lookupA cat p.2).isSome)
    (hh : ∀ p ∈ maps.htmlToName, (lookupA cat p.2).isSome)
    (hu : ∀ p ∈ maps.unicodeToName, (lookupA cat p.2).isSome)
    (h : findEmojiName cat maps input ≠ []) :
    (lookupA cat (findEmojiName cat maps input)).isSome := by
  simp only [findEmojiName] at h ⊢
  split
  next hc => exact hc
  next hc =>
    rw [if_neg hc] at h
    split
    next heq => exact he _ (lookupA_mem heq)
    next heq0 =>
      rw [heq0] at h
      split
      next heq => exact hs _ (lookupA_mem heq)
      next heq1 =>
        rw [heq1] at h
        split
        next heq => exact hh _ (lookupA_mem heq)
        next heq2 =>
          rw [heq2] at h
          split
          next heq =>
            split at heq
            · exact hh _ (lookupA_mem heq)
            · exact absurd heq (by simp)
          next heq3 =>
            rw [heq3] at h
            split
            next heq => exact hu _ (lookupA_mem heq)
            next heq4 =>
              rw [heq4] at h
              split
              next heq => exact hs _ (lookupA_mem heq)
              next heq5 =>
                rw [heq5] at h
                exact absurd rfl h

/-- Every value of the derived character index is a catalog key. -/
theorem emojiToName_vals : ∀ p ∈ gomojiMaps.emojiToName, (lookupA emojiMappings p.2).isSome := by
  decide

/-- Every value of the derived shortcode index is a catalog key. -/
theorem shortcodeToName_vals : ∀ p ∈ gomojiMaps.shortcodeToName, (lookupA emojiMappings p.2).isSome := by
  decide

/-- Every value of the derived HTML index is a catalog key. -/
theorem htmlToName_vals : ∀ p ∈ gomojiMaps.htmlToName, (lookupA emojiMappings p.2).isSome := by
  decide

/-- Every value of the derived escape index is a catalog key. -/
theorem unicodeToName_vals : ∀ p ∈ gomojiMaps.unicodeToName, (lookupA emojiMappings p.2).isSome := by
  decide

/-- In the deployed program, a successful resolution always has a catalog
record, so the `emoji mapping not found` branch of `Transform` is dead. -/
theorem gomoji_find_isSome {input : Str}
    (h : findEmojiName emojiMappings gomojiMaps input ≠ []) :
    (lookupA emojiMappings (findEmojiName emojiMappings gomojiMaps input)).isSome :=
  findEmojiName_isSome emojiToName_vals shortcodeToName_vals htmlToName_vals
    unicodeToName_vals h

/-! ### The claims -/

/-- C10: target-format validation precedes input resolution: for every
catalog, every index set, every input (resolvable or not, empty or not)
and every target format outside the four recognized values, `Transform`
fails with the invalid-format error (never with not-found). -/
theorem C10_validation_first (cat : Catalog) (maps : Maps) (input : Str) (f : String)
    (hf : ¬ validFormat f) :
    Transform cat maps input f = .error .invalidFormat := by
  unfold Transform
  rw [if_neg hf]

/-- Witness for C10 at a concrete unresolvable input and invalid format. -/
theorem C10_validation_first_witness :
    ¬ validFormat "bogus" ∧
      Transform emojiMappings gomojiMaps "not_an_emoji".toList "bogus" =
        .error .invalidFormat :=
  ⟨by decide, C10_validation_first emojiMappings gomojiMaps "not_an_emoji".toList "bogus" (by decide)⟩

/-- Computation of `Transform` under a valid format when resolution fails. -/
theorem Transform_eq_notFound {cat : Catalog} {maps : Maps} {input : Str} {f : String}
    (hf : validFormat f) (hn : findEmojiName cat maps input = []) :
    Transform cat maps input f = .error .notFound := by
  unfold Transform
  rw [if_pos hf]
  simp [hn]

/-- Computation of `Transform` under a valid format when resolution
succeeds and the record exists: the result is the if-chain projecting the
requested field. -/
theorem Transform_eq_found {cat : Catalog} {maps : Maps} {input : Str} {f : String}
    {r : Mapping} (hf : validFormat f)
    (hn : ¬ findEmojiName cat maps input = [])
    (hr : lookupA cat (findEmojiName cat maps input) = some r) :
    Transform cat maps input f =
      (if f = FormatEmoji then .ok r.Emoji
       else if f = FormatShortcode then .ok r.Shortcode
       else if f = FormatHTML then .ok r.HTML
       else if f = FormatUnicode then .ok r.Unicode
       else .error .unexpectedFormat) := by
  unfold Transform
  rw [if_pos hf]
  simp [hn, hr]

/-- Disequalities between the four format constants. -/
theorem format_ne :
    FormatShortcode ≠ FormatEmoji ∧ FormatHTML ≠ FormatEmoji ∧
    FormatHTML ≠ FormatShortcode ∧ FormatUnicode ≠ FormatEmoji ∧
    FormatUnicode ≠ FormatShortcode ∧ FormatUnicode ≠ FormatHTML := by
  refine ⟨?_, ?_, ?_, ?_, ?_, ?_⟩ <;> decide

/-- C3: the `Transform` contract: it fails with the invalid-format error
exactly when the target format is not one of the four recognized values;
it fails with the not-found error exactly when the format is valid and no
resolution path of `findEmojiName` succeeds (the empty result, which
covers the empty-string input); no other error is possible; and on success
the result is precisely the target-format field of the record of the
resolved canonical name. -/
theorem C3_transform_contract (input : Str) (f : String) :
    (Transform emojiMappings gomojiMaps input f = .error .invalidFormat ↔ ¬ validFormat f) ∧
    (Transform emojiMappings gomojiMaps input f = .error .notFound ↔
      validFormat f ∧ findEmojiName emojiMappings gomojiMaps input = []) ∧
    (∀ e, Transform emojiMappings gomojiMaps input f = .error e →
      e = .invalidFormat ∨ e = .notFound) ∧
    (∀ out, Transform emojiMappings gomojiMaps input f = .ok out →
      ∃ r, lookupA emojiMappings (findEmojiName emojiMappings gomojiMaps input) = some r ∧
        ((f = FormatEmoji ∧ out = r.Emoji) ∨ (f = FormatShortcode ∧ out = r.Shortcode) ∨
         (f = FormatHTML ∧ out = r.HTML) ∨ (f = FormatUnicode ∧ out = r.Unicode))) := by
  obtain ⟨dSE, dHE, dHS, dUE, dUS, dUH⟩ := format_ne
  by_cases hf : validFormat f
  · by_cases hn : findEmojiName emojiMappings gomojiMaps input = []
    · have ht := Transform_eq_notFound hf hn
      refine ⟨?_, ?_, ?_, ?_⟩
      · rw [ht]; simp [hf]
      · rw [ht]; simp [hf, hn]
      · intro e he; rw [ht] at he; simp only [Except.error.injEq] at he; simp [he]
      · intro out hout; rw [ht] at hout; exact absurd hout (by simp)
    · obtain ⟨r, hr⟩ := Option.isSome_iff_exists.mp (gomoji_find_isSome hn)
      have ht : ∃ out, Transform emojiMappings gomojiMaps input f = .ok out ∧
          ((f = FormatEmoji ∧ out = r.Emoji) ∨ (f = FormatShortcode ∧ out = r.Shortcode) ∨
           (f = FormatHTML ∧ out = r.HTML) ∨ (f = FormatUnicode ∧ out = r.Unicode)) := by
        have hbase := Transform_eq_found (f := f) hf hn hr
        rcases hf with hf | hf | hf | hf <;> subst hf
        · rw [if_pos rfl] at hbase
          exact ⟨r.Emoji, hbase, Or.inl ⟨rfl, rfl⟩⟩
        · rw [if_neg dSE, if_pos rfl] at hbase
          exact ⟨r.Shortcode, hbase, Or.inr (Or.inl ⟨rfl, rfl⟩)⟩
        · rw [if_neg dHE, if_neg dHS, if_pos rfl] at hbase
          exact ⟨r.HTML, hbase, Or.inr (Or.inr (Or.inl ⟨rfl, rfl⟩))⟩
        · rw [if_neg dUE, if_neg dUS, if_neg dUH, if_pos rfl] at hbase
          exact ⟨r.Unicode, hbase, Or.inr (Or.inr (Or.inr ⟨rfl, rfl⟩))⟩
      obtain ⟨out, hout, hproj⟩ := ht
      refine ⟨?_, ?_, ?_, ?_⟩
      · rw [hout]; simp [hf]
      · rw [hout]; simp [hn]
      · intro e he; rw [hout] at he; exact absurd he (by simp)
      · intro out2 hout2
        rw [hout] at hout2
        simp only [Except.ok.injEq] at hout2
        exact ⟨r, hr, hout2 ▸ hproj⟩
  · have ht : Transform emojiMappings gomojiMaps input f = .error .invalidFormat := by
      unfold Transform; rw [if_neg hf]
    refine ⟨?_, ?_, ?_, ?_⟩
    · rw [ht]; simp [hf]
    · rw [ht]; simp [hf]
    · intro e he; rw [ht] at he; simp only [Except.error.injEq] at he; simp [he]
    · intro out hout; rw [ht] at hout; exact absurd hout (by simp)

/-- Witness for C3 at concrete inputs: the unknown-input and bad-format
scenarios of the spec. -/
theorem C3_transform_contract_witness :
    Transform emojiMappings gomojiMaps "not_an_emoji".toList FormatEmoji = .error .notFound ∧
    Transform emojiMappings gomojiMaps [] FormatEmoji = .error .notFound ∧
    Transform emojiMappings gomojiMaps "smile".toList "Format(bogus)" = .error .invalidFormat :=
  ⟨(C3_transform_contract "not_an_emoji".toList FormatEmoji).2.1.mpr ⟨by decide, by decide⟩,
   (C3_transform_contract [] FormatEmoji).2.1.mpr ⟨by decide, by decide⟩,
   (C3_transform_contract "smile".toList "Format(bogus)").1.mpr (by decide)⟩

/-- C8: the resolver's first-match-wins order: (1) a trimmed input that is
a canonical catalog name resolves to itself before any reverse index is
consulted; (2) the colon-wrapped pseudo-shortcode interpretation is used
only after the name, character, shortcode, HTML, hybrid-HTML and escape
lookups have all failed; (3) in particular an input that is both a
canonical name and (colon-wrapped) another record's shortcode resolves to
the canonical name. -/
theorem C8_resolution_order :
    (∀ input : Str, (lookupA emojiMappings (trimSpace input)).isSome →
        findEmojiName emojiMappings gomojiMaps input = trimSpace input) ∧
    (∀ input : Str,
        (lookupA emojiMappings (trimSpace input)).isSome = false →
        lookupA gomojiMaps.emojiToName (trimSpace input) = none →
        lookupA gomojiMaps.shortcodeToName (trimSpace input) = none →
        lookupA gomojiMaps.htmlToName (trimSpace input) = none →
        (if occurs htmlEntityStart (trimSpace input) && endsWith [vsChar] (trimSpace input) then
            lookupA gomojiMaps.htmlToName (hybridKey (trimSpace input))
          else none) = none →
        lookupA gomojiMaps.unicodeToName (trimSpace input) = none →
        findEmojiName emojiMappings gomojiMaps input =
          (match lookupA gomojiMaps.shortcodeToName (':' :: trimSpace input ++ [':']) with
           | some name => name
           | none => [])) ∧
    (∀ input n2 : Str, (lookupA emojiMappings (trimSpace input)).isSome →
        lookupA gomojiMaps.shortcodeToName (':' :: trimSpace input ++ [':']) = some n2 →
        findEmojiName emojiMappings gomojiMaps input = trimSpace input) := by
  refine ⟨?_, ?_, ?_⟩
  · intro input h
    simp only [findEmojiName]
    rw [if_pos h]
  · intro input h0 h1 h2 h3 h4 h5
    simp only [findEmojiName]
    rw [h0, if_neg (by simp), h1, h2, h3, h4, h5]
  · intro input n2 h _
    simp only [findEmojiName]
    rw [if_pos h]

/-- Witness for C8: `sunny` is both a canonical name and (wrapped) the
shortcode of the distinct record `sun`, and resolves to the name; the
input `call-me` fails every earlier lookup and resolves only through the
colon-wrapping retry. -/
theorem C8_resolution_order_witness :
    lookupA gomojiMaps.shortcodeToName (':' :: trimSpace "sunny".toList ++ [':']) =
      some "sun".toList ∧
    ("sun".toList : Str) ≠ "sunny".toList ∧
    findEmojiName emojiMappings gomojiMaps "sunny".toList = "sunny".toList ∧
    findEmojiName emojiMappings gomojiMaps "call-me".toList = "call_me".toList :=
  ⟨by decide, by decide,
   ((C8_resolution_order.2.2 "sunny".toList "sun".toList (by decide) (by decide)).trans
     (by decide)),
   ((C8_resolution_order.2.1 "call-me".toList (by decide) (by decide) (by decide) (by decide)
      (by decide) (by decide)).trans (by decide))⟩

/-- C4 is false as stated: for an input that contains the HTML entity
marker and ends with the literal variation selector, the hybrid
normalization (`strings.Replace(input, vs, entity, 1)`) rewrites the FIRST
occurrence of the literal variation selector, not the trailing one.  On
this input (a leading and a trailing literal selector around an entity)
the leading occurrence is rewritten and the trailing one survives. -/
theorem C4_counterexample :
    occurs htmlEntityStart (vsChar :: ("&#x1f399;".toList ++ [vsChar])) = true ∧
    endsWith [vsChar] (vsChar :: ("&#x1f399;".toList ++ [vsChar])) = true ∧
    hybridKey (vsChar :: ("&#x1f399;".toList ++ [vsChar])) =
      vsEntity ++ ("&#x1f399;".toList ++ [vsChar]) ∧
    hybridKey (vsChar :: ("&#x1f399;".toList ++ [vsChar])) ≠
      (vsChar :: ("&#x1f399;".toList ++ [vsChar])).dropLast ++ vsEntity := by
  refine ⟨by decide, by decide, by decide, by decide⟩

/-- C4 amended: in the hybrid-normalization step the FIRST occurrence of
the literal variation selector is the one rewritten to its entity form
before the HTML lookup is retried; the trailing occurrence is rewritten
exactly in the case where no earlier literal selector occurs in the
input. -/
theorem C4_hybrid_first_occurrence (input pre : Str)
    (hc : occurs htmlEntityStart input = true)
    (hsplit : input = pre ++ [vsChar])
    (hpre : occurs [vsChar] pre = false) :
    hybridKey input = pre ++ vsEntity := by
  clear hc
  subst hsplit
  unfold hybridKey
  induction pre with
  | nil => decide
  | cons c pre ih =>
    have hc' : ¬ (vsChar = c) ∧ occurs [vsChar] pre = false := by
      revert hpre
      simp only [occurs, List.isPrefixOf, Bool.or_eq_false_iff, Bool.and_eq_false_iff]
      intro h
      constructor
      · intro hvc
        rw [hvc] at h
        simp at h
      · simp at h
        exact h.2
    rw [List.cons_append]
    show replaceFirst (c :: (pre ++ [vsChar])) [vsChar] vsEntity = (c :: pre) ++ vsEntity
    rw [replaceFirst]
    rw [if_neg (by simp), if_neg (by simp [List.isPrefixOf]; exact hc'.1)]
    rw [ih hc'.2]
    simp

/-- Witness for the amended C4: a hybrid input whose only literal selector
is the trailing one; it is rewritten to the entity form. -/
theorem C4_hybrid_first_occurrence_witness :
    occurs htmlEntityStart ("&#x1f399;".toList ++ [vsChar]) = true ∧
    occurs [vsChar] "&#x1f399;".toList = false ∧
    hybridKey ("&#x1f399;".toList ++ [vsChar]) = "&#x1f399;".toList ++ vsEntity :=
  ⟨by decide, by decide,
   C4_hybrid_first_occurrence ("&#x1f399;".toList ++ [vsChar]) "&#x1f399;".toList
     (by decide) rfl (by decide)⟩

/-- C2 is false as stated: when a later record's synthetic base key
collides with an earlier record's canonical HTML key, `init` overwrites
the entry: the later-registered synthetic key displaces the earlier
record's canonical key instead of being dropped. -/
theorem C2_counterexample :
    occurs vsEntity "&#x1f399;&#xfe0f;".toList = true ∧
    replaceFirst "&#x1f399;&#xfe0f;".toList vsEntity [] = "&#x1f399;".toList ∧
    lookupA collisionCatalog "b".toList =
      some ⟨[Char.ofNat 0x1F399], ":b:".toList, "&#x1f399;".toList, "\\U0001F399".toList⟩ ∧
    lookupA (initMaps collisionCatalog).htmlToName "&#x1f399;".toList = some "a".toList ∧
    ("a".toList : Str) ≠ "b".toList := by
  refine ⟨by decide, by decide, by decide, by decide, by decide⟩

/-- C2 amended: on a collision the LATER registration wins: for any
records registered earlier, after the final record (with a
variation-selector HTML entity) is processed, its synthetic base and
hybrid keys map to ITS name in the HTML index, displacing any earlier
entry under those keys. -/
theorem C2_later_synthetic_wins (pre : Catalog) (name : Str) (r : Mapping)
    (hvs : occurs vsEntity r.HTML = true) :
    lookupA (initMaps (pre ++ [(name, r)])).htmlToName
      (replaceFirst r.HTML vsEntity []) = some name ∧
    lookupA (initMaps (pre ++ [(name, r)])).htmlToName
      (replaceFirst r.HTML vsEntity [] ++ [vsChar]) = some name := by
  have hfold : initMaps (pre ++ [(name, r)]) = initStep (initMaps pre) (name, r) := by
    unfold initMaps
    rw [List.foldl_append]
    rfl
  rw [hfold]
  unfold initStep
  simp only [hvs, if_true]
  have hne : ¬ (replaceFirst r.HTML vsEntity [] ++ [vsChar] = replaceFirst r.HTML vsEntity []) := by
    intro h
    have := congrArg List.length h
    simp at this
  constructor
  · split <;> simp [lookupA, hne]
  · split <;> simp [lookupA]

/-- Witness for the amended C2: in the collision catalog the shared key
resolves to the later record `a`. -/
theorem C2_later_synthetic_wins_witness :
    occurs vsEntity "&#x1f399;&#xfe0f;".toList = true ∧
    lookupA (initMaps collisionCatalog).htmlToName "&#x1f399;".toList = some "a".toList := by
  refine ⟨by decide, ?_⟩
  have h := (C2_later_synthetic_wins
    [("b".toList, ⟨[Char.ofNat 0x1F399], ":b:".toList, "&#x1f399;".toList, "\\U0001F399".toList⟩)]
    "a".toList
    ⟨[Char.ofNat 0x1F399, vsChar], ":a:".toList, "&#x1f399;&#xfe0f;".toList,
      "\\U0001F399\\uFE0F".toList⟩ (by decide)).1
  exact (by decide : lookupA (initMaps collisionCatalog).htmlToName "&#x1f399;".toList =
    lookupA (initMaps collisionCatalog).htmlToName
      (replaceFirst "&#x1f399;&#xfe0f;".toList vsEntity [])) ▸ h

/-- C1: round trip: for every canonical name in the catalog and every pair
of valid formats, transforming the name to the first format succeeds, the
intermediate string resolves back to the same canonical name, and
transforming the intermediate to the second format succeeds. -/
theorem C1_round_trip :
    ∀ p ∈ emojiMappings, ∀ f1 ∈ allFormats, ∀ f2 ∈ allFormats,
      ∃ s1 s2, Transform emojiMappings gomojiMaps p.1 f1 = .ok s1 ∧
        findEmojiName emojiMappings gomojiMaps s1 = p.1 ∧
        Transform emojiMappings gomojiMaps s1 f2 = .ok s2 := by
  have hall : (emojiMappings.all fun q => allFormats.all fun g1 => allFormats.all fun g2 =>
      match Transform emojiMappings gomojiMaps q.1 g1 with
      | .error _ => false
      | .ok s1 => decide (findEmojiName emojiMappings gomojiMaps s1 = q.1) &&
                  (Transform emojiMappings gomojiMaps s1 g2).isOk) = true := by decide
  intro p hp f1 h1 f2 h2
  rw [List.all_eq_true] at hall
  have h3 := hall p hp
  rw [List.all_eq_true] at h3
  have h4 := h3 f1 h1
  rw [List.all_eq_true] at h4
  have h5 := h4 f2 h2
  revert h5
  cases ht : Transform emojiMappings gomojiMaps p.1 f1 with
  | error e => intro h5; exact absurd h5 (by simp)
  | ok s1 =>
    intro h5
    simp only [Bool.and_eq_true, decide_eq_true_eq] at h5
    obtain ⟨hfind, hok⟩ := h5
    cases ht2 : Transform emojiMappings gomojiMaps s1 f2 with
    | error e => rw [ht2] at hok; exact absurd hok (by simp [Except.isOk, Except.toBool])
    | ok s2 => exact ⟨s1, s2, rfl, hfind, ht2⟩

/-- Witness for C1 at the `smile` record and the emoji/shortcode formats. -/
theorem C1_round_trip_witness :
    ∃ s1 s2, Transform emojiMappings gomojiMaps "smile".toList FormatEmoji = .ok s1 ∧
      findEmojiName emojiMappings gomojiMaps s1 = "smile".toList ∧
      Transform emojiMappings gomojiMaps s1 FormatShortcode = .ok s2 :=
  C1_round_trip
    ("smile".toList, ⟨[Char.ofNat 0x1F604], ":smile:".toList, "&#x1f604;".toList,
      "\\U0001F604".toList⟩)
    (by decide) FormatEmoji (by decide) FormatShortcode (by decide)

/-- C5: variation-selector equivalence: for every catalog record whose
canonical HTML field is a single entity followed by the variation-selector
entity, the canonical form, the base form (the bare entity), and the
hybrid form (the bare entity followed by the literal selector) are all
supported, and all three transform to the same emoji character string. -/
theorem C5_vs_equivalence :
    ∀ p ∈ emojiMappings, ∀ e rest : Str, parseEntity p.2.HTML = some (e, rest) →
      rest = vsEntity →
      IsSupported emojiMappings gomojiMaps p.2.HTML = true ∧
      IsSupported emojiMappings gomojiMaps e = true ∧
      IsSupported emojiMappings gomojiMaps (e ++ [vsChar]) = true ∧
      ∃ out, Transform emojiMappings gomojiMaps p.2.HTML FormatEmoji = .ok out ∧
        Transform emojiMappings gomojiMaps e FormatEmoji = .ok out ∧
        Transform emojiMappings gomojiMaps (e ++ [vsChar]) FormatEmoji = .ok out := by
  have hall : (emojiMappings.all fun q =>
      match parseEntity q.2.HTML with
      | none => true
      | some (e, rest) =>
        if rest = vsEntity then
          IsSupported emojiMappings gomojiMaps q.2.HTML &&
          IsSupported emojiMappings gomojiMaps e &&
          IsSupported emojiMappings gomojiMaps (e ++ [vsChar]) &&
          match Transform emojiMappings gomojiMaps q.2.HTML FormatEmoji,
                Transform emojiMappings gomojiMaps e FormatEmoji,
                Transform emojiMappings gomojiMaps (e ++ [vsChar]) FormatEmoji with
          | .ok a, .ok b, .ok c => decide (a = b) && decide (b = c)
          | _, _, _ => false
        else true) = true := by decide
  intro p hp e rest heq hrest
  subst hrest
  rw [List.all_eq_true] at hall
  have h := hall p hp
  simp only [heq, if_true] at h
  simp only [Bool.and_eq_true] at h
  obtain ⟨⟨⟨h1, h2⟩, h3⟩, h4⟩ := h
  refine ⟨h1, h2, h3, ?_⟩
  revert h4
  cases hA : Transform emojiMappings gomojiMaps p.2.HTML FormatEmoji with
  | error eA => intro h4; exact absurd h4 (by simp)
  | ok a =>
    cases hB : Transform emojiMappings gomojiMaps e FormatEmoji with
    | error eB => intro h4; exact absurd h4 (by simp)
    | ok b =>
      cases hC : Transform emojiMappings gomojiMaps (e ++ [vsChar]) FormatEmoji with
      | error eC => intro h4; exact absurd h4 (by simp)
      | ok c =>
        intro h4
        simp only [Bool.and_eq_true, decide_eq_true_eq] at h4
        refine ⟨a, rfl, ?_, ?_⟩
        · rw [h4.1]
        · rw [h4.1, h4.2]

/-- Witness for C5 at the `microphone` record. -/
theorem C5_vs_equivalence_witness :
    parseEntity "&#x1f399;&#xfe0f;".toList = some ("&#x1f399;".toList, vsEntity) ∧
    (IsSupported emojiMappings gomojiMaps "&#x1f399;&#xfe0f;".toList = true ∧
     IsSupported emojiMappings gomojiMaps "&#x1f399;".toList = true ∧
     IsSupported emojiMappings gomojiMaps ("&#x1f399;".toList ++ [vsChar]) = true ∧
     ∃ out, Transform emojiMappings gomojiMaps "&#x1f399;&#xfe0f;".toList FormatEmoji = .ok out ∧
       Transform emojiMappings gomojiMaps "&#x1f399;".toList FormatEmoji = .ok out ∧
       Transform emojiMappings gomojiMaps ("&#x1f399;".toList ++ [vsChar]) FormatEmoji = .ok out) :=
  ⟨by decide,
   C5_vs_equivalence
     ("microphone".toList, ⟨[Char.ofNat 0x1F399, vsChar], ":microphone:".toList,
       "&#x1f399;&#xfe0f;".toList, "\\U0001F399\\uFE0F".toList⟩)
     (by decide) "&#x1f399;".toList vsEntity (by decide) rfl⟩

/-! ### Scanner lemmas for the bulk text transform -/

/-- `Transform` under an invalid format (helper shared by the text-pass
lemmas). -/
theorem Transform_invalid {cat : Catalog} {maps : Maps} {input : Str} {f : String}
    (hf : ¬ validFormat f) : Transform cat maps input f = .error .invalidFormat := by
  unfold Transform
  rw [if_neg hf]

/-- The fuel of `scanSCGo` is irrelevant once it reaches the string length. -/
theorem scanSCGo_irrel (f : Str → Str) : ∀ (n n' : Nat) (s : Str),
    s.length ≤ n → s.length ≤ n' → scanSCGo f n s = scanSCGo f n' s := by
  intro n
  induction n with
  | zero =>
    intro n' s hs _
    match s with
    | [] => cases n' <;> rfl
    | c :: t => simp at hs
  | succ n ih =>
    intro n' s hs hs'
    match s with
    | [] => cases n' <;> rfl
    | c :: t =>
      match n', hs' with
      | Nat.succ n', hs' =>
        show (match matchSC (c :: t) with
              | some (m, tail) => f m ++ scanSCGo f n tail
              | none => c :: scanSCGo f n t) =
            (match matchSC (c :: t) with
              | some (m, tail) => f m ++ scanSCGo f n' tail
              | none => c :: scanSCGo f n' t)
        simp only [List.length_cons] at hs hs'
        cases heq : matchSC (c :: t) with
        | none =>
          show c :: scanSCGo f n t = c :: scanSCGo f n' t
          rw [ih n' t (by omega) (by omega)]
        | some p =>
          obtain ⟨m, tail⟩ := p
          have hlen := matchSC_length heq
          simp only [List.length_cons] at hlen
          show f m ++ scanSCGo f n tail = f m ++ scanSCGo f n' tail
          rw [ih n' tail (by omega) (by omega)]

/-- The shortcode scan of the empty string. -/
theorem scanSC_nil (f : Str → Str) : scanSC f [] = [] := rfl

/-- The unfolding equation of `scanSC` as a plain match. -/
theorem scanSC_cons (f : Str → Str) (c : Char) (rest : Str) :
    scanSC f (c :: rest) =
      match matchSC (c :: rest) with
      | some (m, tail) => f m ++ scanSC f tail
      | none => c :: scanSC f rest := by
  cases heq : matchSC (c :: rest) with
  | none =>
    show scanSCGo f (rest.length + 1) (c :: rest) = _
    simp only [scanSCGo, heq]
    rfl
  | some p =>
    obtain ⟨m, tail⟩ := p
    have hlen := matchSC_length heq
    simp only [List.length_cons] at hlen
    have hIr : scanSCGo f rest.length tail = scanSC f tail :=
      scanSCGo_irrel f rest.length tail.length tail (by omega) le_rfl
    show scanSCGo f (rest.length + 1) (c :: rest) = _
    simp only [scanSCGo, heq, hIr]

/-- `scanSC` when a match starts at the head. -/
theorem scanSC_cons_some {c : Char} {rest m tail : Str} (f : Str → Str)
    (h : matchSC (c :: rest) = some (m, tail)) :
    scanSC f (c :: rest) = f m ++ scanSC f tail := by
  rw [scanSC_cons, h]

/-- `scanSC` when no match starts at the head. -/
theorem scanSC_cons_none {c : Char} {rest : Str} (f : Str → Str)
    (h : matchSC (c :: rest) = none) :
    scanSC f (c :: rest) = c :: scanSC f rest := by
  rw [scanSC_cons, h]

/-- The fuel of `scMatchesGo` is irrelevant once it reaches the string
length. -/
theorem scMatchesGo_irrel : ∀ (n n' : Nat) (s : Str),
    s.length ≤ n → s.length ≤ n' → scMatchesGo n s = scMatchesGo n' s := by
  intro n
  induction n with
  | zero =>
    intro n' s hs _
    match s with
    | [] => cases n' <;> rfl
    | c :: t => simp at hs
  | succ n ih =>
    intro n' s hs hs'
    match s with
    | [] => cases n' <;> rfl
    | c :: t =>
      match n', hs' with
      | Nat.succ n', hs' =>
        show (match matchSC (c :: t) with
              | some (m, tail) => m :: scMatchesGo n tail
              | none => scMatchesGo n t) =
            (match matchSC (c :: t) with
              | some (m, tail) => m :: scMatchesGo n' tail
              | none => scMatchesGo n' t)
        simp only [List.length_cons] at hs hs'
        cases heq : matchSC (c :: t) with
        | none =>
          show scMatchesGo n t = scMatchesGo n' t
          rw [ih n' t (by omega) (by omega)]
        | some p =>
          obtain ⟨m, tail⟩ := p
          have hlen := matchSC_length heq
          simp only [List.length_cons] at hlen
          show m :: scMatchesGo n tail = m :: scMatchesGo n' tail
          rw [ih n' tail (by omega) (by omega)]

/-- The unfolding equation of `scMatches` as a plain match. -/
theorem scMatches_cons (c : Char) (rest : Str) :
    scMatches (c :: rest) =
      match matchSC (c :: rest) with
      | some (m, tail) => m :: scMatches tail
      | none => scMatches rest := by
  cases heq : matchSC (c :: rest) with
  | none =>
    show scMatchesGo (rest.length + 1) (c :: rest) = _
    simp only [scMatchesGo, heq]
    rfl
  | some p =>
    obtain ⟨m, tail⟩ := p
    have hlen := matchSC_length heq
    simp only [List.length_cons] at hlen
    have hIr : scMatchesGo rest.length tail = scMatches tail :=
      scMatchesGo_irrel rest.length tail.length tail (by omega) le_rfl
    show scMatchesGo (rest.length + 1) (c :: rest) = _
    simp only [scMatchesGo, heq, hIr]

/-- `scMatches` when a match starts at the head. -/
theorem scMatches_cons_some {c : Char} {rest m tail : Str}
    (h : matchSC (c :: rest) = some (m, tail)) :
    scMatches (c :: rest) = m :: scMatches tail := by
  rw [scMatches_cons, h]

/-- `scMatches` when no match starts at the head. -/
theorem scMatches_cons_none {c : Char} {rest : Str} (h : matchSC (c :: rest) = none) :
    scMatches (c :: rest) = scMatches rest := by
  rw [scMatches_cons, h]

/-- A shortcode match together with its remainder reassembles the input. -/
theorem matchSC_decomp {s m tail : Str} (h : matchSC s = some (m, tail)) :
    s = m ++ tail := by
  unfold matchSC at h
  split at h
  next rest =>
    split at h
    next heq =>
      split at h
      · exact absurd h (by simp)
      · simp only [Option.some.injEq, Prod.mk.injEq] at h
        obtain ⟨rfl, rfl⟩ := h
        simp only [List.cons_append, List.append_assoc, List.singleton_append,
          List.nil_append, List.cons.injEq, true_and]
        rw [← heq, List.takeWhile_append_dropWhile]
    next => exact absurd h (by simp)
  next => exact absurd h (by simp)

/-- If every match the shortcode scan visits is fixed by `f`, the scan
returns the input unchanged. -/
theorem scanSC_eq_self {f : Str → Str} :
    ∀ (s : Str), (∀ m ∈ scMatches s, f m = m) → scanSC f s = s
  | [], _ => scanSC_nil f
  | c :: rest, h => by
    cases heq : matchSC (c :: rest) with
    | none =>
      rw [scanSC_cons_none f heq,
        scanSC_eq_self rest fun x hx => h x (by rw [scMatches_cons_none heq]; exact hx)]
    | some p =>
      obtain ⟨m, tail⟩ := p
      rw [scanSC_cons_some f heq,
        h m (by rw [scMatches_cons_some heq]; exact List.mem_cons_self _ _),
        scanSC_eq_self tail fun x hx =>
          h x (by rw [scMatches_cons_some heq]; exact List.mem_cons_of_mem _ hx)]
      exact (matchSC_decomp heq).symm
termination_by s => s.length
decreasing_by
  · simp
  · have hlen := matchSC_length heq
    simp only [List.length_cons] at hlen ⊢
    omega

/-- The fuel of `scanHTMLGo` is irrelevant once it reaches the string
length. -/
theorem scanHTMLGo_irrel (f : Str → Str) : ∀ (n n' : Nat) (s : Str),
    s.length ≤ n → s.length ≤ n' → scanHTMLGo f n s = scanHTMLGo f n' s := by
  intro n
  induction n with
  | zero =>
    intro n' s hs _
    match s with
    | [] => cases n' <;> rfl
    | c :: t => simp at hs
  | succ n ih =>
    intro n' s hs hs'
    match s with
    | [] => cases n' <;> rfl
    | c :: t =>
      match n', hs' with
      | Nat.succ n', hs' =>
        show (match parseRun (c :: t) with
              | some (m, tail) => f m ++ scanHTMLGo f n tail
              | none => c :: scanHTMLGo f n t) =
            (match parseRun (c :: t) with
              | some (m, tail) => f m ++ scanHTMLGo f n' tail
              | none => c :: scanHTMLGo f n' t)
        simp only [List.length_cons] at hs hs'
        cases heq : parseRun (c :: t) with
        | none =>
          show c :: scanHTMLGo f n t = c :: scanHTMLGo f n' t
          rw [ih n' t (by omega) (by omega)]
        | some p =>
          obtain ⟨m, tail⟩ := p
          have hlen := parseRun_length heq
          simp only [List.length_cons] at hlen
          show f m ++ scanHTMLGo f n tail = f m ++ scanHTMLGo f n' tail
          rw [ih n' tail (by omega) (by omega)]

/-- The HTML scan of the empty string. -/
theorem scanHTML_nil (f : Str → Str) : scanHTML f [] = [] := rfl

/-- The unfolding equation of `scanHTML` as a plain match. -/
theorem scanHTML_cons (f : Str → Str) (c : Char) (rest : Str) :
    scanHTML f (c :: rest) =
      match parseRun (c :: rest) with
      | some (m, tail) => f m ++ scanHTML f tail
      | none => c :: scanHTML f rest := by
  cases heq : parseRun (c :: rest) with
  | none =>
    show scanHTMLGo f (rest.length + 1) (c :: rest) = _
    simp only [scanHTMLGo, heq]
    rfl
  | some p =>
    obtain ⟨m, tail⟩ := p
    have hlen := parseRun_length heq
    simp only [List.length_cons] at hlen
    have hIr : scanHTMLGo f rest.length tail = scanHTML f tail :=
      scanHTMLGo_irrel f rest.length tail.length tail (by omega) le_rfl
    show scanHTMLGo f (rest.length + 1) (c :: rest) = _
    simp only [scanHTMLGo, heq, hIr]

/-- `scanHTML` when a run starts at the head. -/
theorem scanHTML_cons_some {c : Char} {rest m tail : Str} (f : Str → Str)
    (h : parseRun (c :: rest) = some (m, tail)) :
    scanHTML f (c :: rest) = f m ++ scanHTML f tail := by
  rw [scanHTML_cons, h]

/-- `scanHTML` when no run starts at the head. -/
theorem scanHTML_cons_none {c : Char} {rest : Str} (f : Str → Str)
    (h : parseRun (c :: rest) = none) :
    scanHTML f (c :: rest) = c :: scanHTML f rest := by
  rw [scanHTML_cons, h]

/-- The fuel of `htmlMatchesGo` is irrelevant once it reaches the string
length. -/
theorem htmlMatchesGo_irrel : ∀ (n n' : Nat) (s : Str),
    s.length ≤ n → s.length ≤ n' → htmlMatchesGo n s = htmlMatchesGo n' s := by
  intro n
  induction n with
  | zero =>
    intro n' s hs _
    match s with
    | [] => cases n' <;> rfl
    | c :: t => simp at hs
  | succ n ih =>
    intro n' s hs hs'
    match s with
    | [] => cases n' <;> rfl
    | c :: t =>
      match n', hs' with
      | Nat.succ n', hs' =>
        show (match parseRun (c :: t) with
              | some (m, tail) => m :: htmlMatchesGo n tail
              | none => htmlMatchesGo n t) =
            (match parseRun (c :: t) with
              | some (m, tail) => m :: htmlMatchesGo n' tail
              | none => htmlMatchesGo n' t)
        simp only [List.length_cons] at hs hs'
        cases heq : parseRun (c :: t) with
        | none =>
          show htmlMatchesGo n t = htmlMatchesGo n' t
          rw [ih n' t (by omega) (by omega)]
        | some p =>
          obtain ⟨m, tail⟩ := p
          have hlen := parseRun_length heq
          simp only [List.length_cons] at hlen
          show m :: htmlMatchesGo n tail = m :: htmlMatchesGo n' tail
          rw [ih n' tail (by omega) (by omega)]

/-- The unfolding equation of `htmlMatches` as a plain match. -/
theorem htmlMatches_cons (c : Char) (rest : Str) :
    htmlMatches (c :: rest) =
      match parseRun (c :: rest) with
      | some (m, tail) => m :: htmlMatches tail
      | none => htmlMatches rest := by
  cases heq : parseRun (c :: rest) with
  | none =>
    show htmlMatchesGo (rest.length + 1) (c :: rest) = _
    simp only [htmlMatchesGo, heq]
    rfl
  | some p =>
    obtain ⟨m, tail⟩ := p
    have hlen := parseRun_length heq
    simp only [List.length_cons] at hlen
    have hIr : htmlMatchesGo rest.length tail = htmlMatches tail :=
      htmlMatchesGo_irrel rest.length tail.length tail (by omega) le_rfl
    show htmlMatchesGo (rest.length + 1) (c :: rest) = _
    simp only [htmlMatchesGo, heq, hIr]

/-- `htmlMatches` when a run starts at the head. -/
theorem htmlMatches_cons_some {c : Char} {rest m tail : Str}
    (h : parseRun (c :: rest) = some (m, tail)) :
    htmlMatches (c :: rest) = m :: htmlMatches tail := by
  rw [htmlMatches_cons, h]

/-- `htmlMatches` when no run starts at the head. -/
theorem htmlMatches_cons_none {c : Char} {rest : Str} (h : parseRun (c :: rest) = none) :
    htmlMatches (c :: rest) = htmlMatches rest := by
  rw [htmlMatches_cons, h]

/-- A parsed entity together with its remainder reassembles the input. -/
theorem parseEntity_decomp {s m rest : Str} (h : parseEntity s = some (m, rest)) :
    s = m ++ rest := by
  unfold parseEntity at h
  split at h
  next t =>
    split at h
    next heq =>
      split at h
      · exact absurd h (by simp)
      · simp only [Option.some.injEq, Prod.mk.injEq] at h
        obtain ⟨rfl, rfl⟩ := h
        simp only [List.cons_append, List.append_assoc, List.singleton_append,
          List.nil_append, List.cons.injEq, true_and]
        rw [← heq, List.takeWhile_append_dropWhile]
    next => exact absurd h (by simp)
  next => exact absurd h (by simp)

/-- A parsed entity run together with its remainder reassembles the input
(bounded induction helper). -/
theorem parseRun_decomp_aux : ∀ (n : Nat) (s : Str), s.length ≤ n →
    ∀ {m rest : Str}, parseRun s = some (m, rest) → s = m ++ rest := by
  intro n
  induction n with
  | zero =>
    intro s hs m rest h
    match s with
    | [] => exact absurd h (by simp [parseRun, parseRunGo])
    | c :: tl => simp at hs
  | succ n ih =>
    intro s hs m rest h
    cases heq : parseEntity s with
    | none => rw [parseRun_none heq] at h; exact absurd h (by simp)
    | some p =>
      obtain ⟨m1, r1⟩ := p
      rw [parseRun_some heq] at h
      have h1 := parseEntity_length heq
      cases hrun : parseRun r1 with
      | none =>
        rw [hrun] at h
        simp only [Option.some.injEq, Prod.mk.injEq] at h
        obtain ⟨rfl, rfl⟩ := h
        exact parseEntity_decomp heq
      | some q =>
        obtain ⟨m2, r2⟩ := q
        rw [hrun] at h
        simp only [Option.some.injEq, Prod.mk.injEq] at h
        obtain ⟨rfl, rfl⟩ := h
        rw [parseEntity_decomp heq, ih r1 (by omega) hrun, List.append_assoc]

/-- A parsed entity run together with its remainder reassembles the input. -/
theorem parseRun_decomp {s m rest : Str} (h : parseRun s = some (m, rest)) :
    s = m ++ rest :=
  parseRun_decomp_aux s.length s le_rfl h

/-- If every run the HTML scan visits is fixed by `f`, the scan returns
the input unchanged. -/
theorem scanHTML_eq_self {f : Str → Str} :
    ∀ (s : Str), (∀ m ∈ htmlMatches s, f m = m) → scanHTML f s = s
  | [], _ => scanHTML_nil f
  | c :: rest, h => by
    cases heq : parseRun (c :: rest) with
    | none =>
      rw [scanHTML_cons_none f heq,
        scanHTML_eq_self rest fun x hx => h x (by rw [htmlMatches_cons_none heq]; exact hx)]
    | some p =>
      obtain ⟨m, tail⟩ := p
      rw [scanHTML_cons_some f heq,
        h m (by rw [htmlMatches_cons_some heq]; exact List.mem_cons_self _ _),
        scanHTML_eq_self tail fun x hx =>
          h x (by rw [htmlMatches_cons_some heq]; exact List.mem_cons_of_mem _ hx)]
      exact (parseRun_decomp heq).symm
termination_by s => s.length
decreasing_by
  · simp
  · have hlen := parseRun_length heq
    simp only [List.length_cons] at hlen ⊢
    omega

/-- A character-pass step with a key that does not occur leaves the text
unchanged. -/
theorem charStep_of_not_occurs {cat : Catalog} {maps : Maps} {tf : String} {res : Str}
    {e : Str × Str} (h : occurs e.1 res = false) :
    charStep cat maps tf res e = res := by
  unfold charStep
  rw [h]
  simp

/-- A character-pass step whose delegated transform fails leaves the text
unchanged. -/
theorem charStep_of_error {cat : Catalog} {maps : Maps} {tf : String} {res : Str}
    {e : Str × Str} {err : TransformError} (h : Transform cat maps e.2 tf = .error err) :
    charStep cat maps tf res e = res := by
  unfold charStep
  split
  · rw [h]
  · rfl

/-- The character pass is the identity under an invalid target format. -/
theorem charPass_invalid {cat : Catalog} {maps : Maps} {f : String}
    (hf : ¬ validFormat f) (text : Str) : charPass cat maps f text = text :=
  foldl_fixed fun _ _ => charStep_of_error (Transform_invalid hf)

/-- The character pass is the identity when no key occurs in the text. -/
theorem charPass_no_occurs {cat : Catalog} {maps : Maps} {f : String} {text : Str}
    (h : ∀ p ∈ dedupKeys maps.emojiToName, occurs p.1 text = false) :
    charPass cat maps f text = text :=
  foldl_fixed fun e he => charStep_of_not_occurs (h e he)

/-- The shortcode-pass replacement is the identity under an invalid target
format. -/
theorem scReplace_invalid {cat : Catalog} {maps : Maps} {f : String}
    (hf : ¬ validFormat f) (m : Str) : scReplace cat maps f m = m := by
  unfold scReplace
  split
  next name heq => rw [Transform_invalid hf]
  next => rfl

/-- The shortcode-pass replacement keeps an unknown match. -/
theorem scReplace_unknown {cat : Catalog} {maps : Maps} {f : String} {m : Str}
    (h : lookupA maps.shortcodeToName m = none) : scReplace cat maps f m = m := by
  unfold scReplace
  rw [h]

/-- The HTML-pass replacement is the identity under an invalid target
format. -/
theorem htmlReplace_invalid {cat : Catalog} {maps : Maps} {f : String}
    (hf : ¬ validFormat f) (m : Str) : htmlReplace cat maps f m = m := by
  unfold htmlReplace
  split
  next name heq => rw [Transform_invalid hf]
  next => rfl

/-- The HTML-pass replacement keeps an unknown run. -/
theorem htmlReplace_unknown {cat : Catalog} {maps : Maps} {f : String} {m : Str}
    (h : lookupA maps.htmlToName m = none) : htmlReplace cat maps f m = m := by
  unfold htmlReplace
  rw [h]

/-- No key of the character index occurs in the empty text. -/
theorem keys_not_in_nil : ∀ p ∈ dedupKeys gomojiMaps.emojiToName, occurs p.1 [] = false := by
  decide

/-- C6: `TransformText` is total and never surfaces an error: whenever a
per-occurrence delegated transform fails (which, for resolvable catalog
names, happens exactly under an invalid target format), every original
substring is preserved unchanged; text with no recognizable emoji
occurrence is returned unchanged; and the empty text maps to the empty
text for every format.  (Totality itself is expressed by the return type:
`TransformText` returns a `Str`, not an `Except`.) -/
theorem C6_transformText_total :
    (∀ (text : Str) (f : String), ¬ validFormat f →
        TransformText emojiMappings gomojiMaps text f = text) ∧
    (∀ (text : Str) (f : String), hasEmojiOccurrence gomojiMaps text = false →
        TransformText emojiMappings gomojiMaps text f = text) ∧
    (∀ f : String, TransformText emojiMappings gomojiMaps [] f = []) := by
  refine ⟨?_, ?_, ?_⟩
  · intro text f hf
    unfold TransformText
    rw [charPass_invalid hf]
    unfold shortcodePass htmlPass
    rw [scanSC_eq_self _ fun m _ => scReplace_invalid hf m]
    rw [scanHTML_eq_self _ fun m _ => htmlReplace_invalid hf m]
  · intro text f hocc
    unfold hasEmojiOccurrence at hocc
    simp only [Bool.or_eq_false_iff, List.any_eq_false] at hocc
    obtain ⟨⟨h1, h2⟩, h3⟩ := hocc
    unfold TransformText
    rw [charPass_no_occurs fun p hp => by
      have := h1 p hp
      simpa using this]
    unfold shortcodePass htmlPass
    rw [scanSC_eq_self _ fun m hm => scReplace_unknown (by
      have := h2 m hm
      simpa [Option.isSome_iff_exists, Option.eq_none_iff_forall_not_mem] using this)]
    rw [scanHTML_eq_self _ fun m hm => htmlReplace_unknown (by
      have := h3 m hm
      simpa [Option.isSome_iff_exists, Option.eq_none_iff_forall_not_mem] using this)]
  · intro f
    unfold TransformText
    rw [charPass_no_occurs keys_not_in_nil]
    unfold shortcodePass htmlPass
    rw [scanSC_nil, scanHTML_nil]

/-- Witness for C6: an invalid format leaves a convertible text unchanged;
plain text is unchanged under a valid format; the empty text maps to the
empty text. -/
theorem C6_transformText_total_witness :
    TransformText emojiMappings gomojiMaps "I am happy".toList "bogus" = "I am happy".toList ∧
    TransformText emojiMappings gomojiMaps "This is just plain text".toList FormatEmoji =
      "This is just plain text".toList ∧
    TransformText emojiMappings gomojiMaps [] FormatShortcode = [] :=
  ⟨C6_transformText_total.1 "I am happy".toList "bogus" (by decide),
   C6_transformText_total.2.1 "This is just plain text".toList FormatEmoji (by decide),
   C6_transformText_total.2.2 FormatShortcode⟩

/-- C9: `TransformText` is exactly the composition of the three passes in
the fixed order literal-character, then shortcode, then HTML-entity run,
each scanning the output of the previous pass: the shortcode scan finds a
match in the literal pass's output for an input it finds no match in
itself, and the HTML scan finds a run in the shortcode pass's output
likewise; an escape-sequence input is matched by no pass (it is returned
unchanged for every format) even though the resolver recognizes it. -/
theorem C9_three_passes :
    (∀ (text : Str) (f : String),
        TransformText emojiMappings gomojiMaps text f =
          htmlPass emojiMappings gomojiMaps f
            (shortcodePass emojiMappings gomojiMaps f
              (charPass emojiMappings gomojiMaps f text))) ∧
    (scMatches [Char.ofNat 0x1F604] = [] ∧
     charPass emojiMappings gomojiMaps FormatShortcode [Char.ofNat 0x1F604] =
       ":smile:".toList ∧
     scMatches ":smile:".toList = [":smile:".toList]) ∧
    (htmlMatches ":smile:".toList = [] ∧
     shortcodePass emojiMappings gomojiMaps FormatHTML ":smile:".toList =
       "&#x1f604;".toList ∧
     htmlMatches "&#x1f604;".toList = ["&#x1f604;".toList]) ∧
    ((∀ f : String, TransformText emojiMappings gomojiMaps "\\U0001F604".toList f =
        "\\U0001F604".toList) ∧
     findEmojiName emojiMappings gomojiMaps "\\U0001F604".toList = "smile".toList) := by
  refine ⟨fun text f => rfl, ⟨by decide, by decide, by decide⟩,
    ⟨by decide, by decide, by decide⟩, ⟨?_, by decide⟩⟩
  intro f
  unfold TransformText
  rw [charPass_no_occurs (by decide)]
  unfold shortcodePass htmlPass
  rw [scanSC_eq_self _ fun m hm => by
    rw [show scMatches "\\U0001F604".toList = [] by decide] at hm
    exact absurd hm (by simp)]
  rw [scanHTML_eq_self _ fun m hm => by
    rw [show htmlMatches "\\U0001F604".toList = [] by decide] at hm
    exact absurd hm (by simp)]

/-! ### A toolkit for substring occurrence -/

/-- `occurs` on a cons cell. -/
theorem occurs_cons_eq (pat : Str) (c : Char) (t : Str) :
    occurs pat (c :: t) = (pat.isPrefixOf (c :: t) || occurs pat t) := rfl

/-- A prefix is an occurrence. -/
theorem occurs_of_isPrefixOf {pat s : Str} (h : pat.isPrefixOf s = true) :
    occurs pat s = true := by
  match s with
  | [] =>
    have : pat = [] := by
      match pat with
      | [] => rfl
      | c :: t => simp [List.isPrefixOf] at h
    simp [this, occurs]
  | c :: t => rw [occurs_cons_eq, h]; rfl

/-- An occurrence survives prepending a character. -/
theorem occurs_cons_of {pat : Str} {c : Char} {t : Str} (h : occurs pat t = true) :
    occurs pat (c :: t) = true := by
  rw [occurs_cons_eq, h]
  simp

/-- An occurrence in the right part survives appending on the left. -/
theorem occurs_append_right {pat b : Str} (a : Str) (h : occurs pat b = true) :
    occurs pat (a ++ b) = true := by
  induction a with
  | nil => exact h
  | cons c t ih => exact occurs_cons_of ih

/-- An occurrence in the left part survives appending on the right. -/
theorem occurs_append_left {pat a : Str} (b : Str) (h : occurs pat a = true) :
    occurs pat (a ++ b) = true := by
  induction a with
  | nil =>
    have : pat = [] := by
      match pat with
      | [] => rfl
      | c :: t => simp [occurs] at h
    subst this
    match b with
    | [] => rfl
    | c :: t => simp [occurs, List.isPrefixOf]
  | cons c t ih =>
    rw [occurs_cons_eq] at h
    rcases Bool.or_eq_true_iff.mp h with h1 | h1
    · rw [List.cons_append, occurs_cons_eq]
      have h2 : pat.isPrefixOf (c :: (t ++ b)) = true := by
        rw [List.isPrefixOf_iff_prefix] at h1 ⊢
        exact h1.trans (by rw [← List.cons_append]; exact List.prefix_append _ _)
      rw [h2]; rfl
    · exact occurs_cons_of (ih h1)

/-- An occurrence in a dropped suffix is an occurrence. -/
theorem occurs_drop {pat t : Str} {n : Nat} (h : occurs pat (t.drop n) = true) :
    occurs pat t = true := by
  have := occurs_append_right (t.take n) h
  rwa [List.take_append_drop] at this

/-- Decompose an occurrence in an appended string: either it starts inside
the left part or it lies in the right part. -/
theorem occurs_append_cases {pat b : Str} :
    ∀ (a : Str), occurs pat (a ++ b) = true →
      (∃ a2, (∃ a1, a = a1 ++ a2) ∧ pat.isPrefixOf (a2 ++ b) = true) ∨ occurs pat b = true := by
  intro a
  induction a with
  | nil => intro h; exact Or.inr h
  | cons c t ih =>
    intro h
    rw [List.cons_append, occurs_cons_eq] at h
    rcases Bool.or_eq_true_iff.mp h with h1 | h1
    · exact Or.inl ⟨c :: t, ⟨[], rfl⟩, by rwa [List.cons_append]⟩
    · rcases ih h1 with ⟨a2, ⟨a1, ha⟩, hp⟩ | h2
      · exact Or.inl ⟨a2, ⟨c :: a1, by rw [ha]; rfl⟩, hp⟩
      · exact Or.inr h2

/-- Decompose a prefix of an appended string. -/
theorem isPrefixOf_append_cases {u b : Str} :
    ∀ (a : Str), u.isPrefixOf (a ++ b) = true →
      u.isPrefixOf a = true ∨ ∃ u2, u = a ++ u2 ∧ u2.isPrefixOf b = true := by
  intro a
  induction a generalizing u with
  | nil => intro h; exact Or.inr ⟨u, rfl, h⟩
  | cons c t ih =>
    intro h
    match u with
    | [] => exact Or.inl rfl
    | d :: u' =>
      rw [List.cons_append] at h
      simp only [List.isPrefixOf, Bool.and_eq_true, beq_iff_eq] at h
      obtain ⟨rfl, h2⟩ := h
      rcases ih h2 with h3 | ⟨u2, rfl, h4⟩
      · exact Or.inl (by simp [List.isPrefixOf, h3])
      · exact Or.inr ⟨u2, rfl, h4⟩

/-- An occurrence of a non-empty pattern whose characters all avoid the
left part lies in the right part. -/
theorem occurs_absent_append {pat a b : Str} (hk : pat ≠ [])
    (hab : ∀ c ∈ pat, c ∉ a) (h : occurs pat (a ++ b) = true) :
    occurs pat b = true := by
  rcases occurs_append_cases a h with ⟨a2, ⟨a1, ha⟩, hp⟩ | h2
  · match a2 with
    | [] => exact occurs_of_isPrefixOf hp
    | x :: a2' =>
      obtain ⟨k0, pat', rfl⟩ := List.exists_cons_of_ne_nil hk
      rw [List.cons_append] at hp
      simp only [List.isPrefixOf, Bool.and_eq_true, beq_iff_eq] at hp
      obtain ⟨rfl, -⟩ := hp
      exact absurd (by rw [ha]; exact List.mem_append_right _ (List.mem_cons_self _ _))
        (hab k0 (List.mem_cons_self _ _))
  · exact h2

/-- A true prefix decomposes the string. -/
theorem eq_append_of_isPrefixOf {pat s : Str} (h : pat.isPrefixOf s = true) :
    s = pat ++ s.drop pat.length := by
  rw [List.isPrefixOf_iff_prefix] at h
  obtain ⟨r, rfl⟩ := h
  rw [List.drop_left]

/-- `takeWhile` distributes over an all-satisfying left part. -/
theorem takeWhile_append_all {p : Char → Bool} {a : Str} (b : Str)
    (h : ∀ c ∈ a, p c = true) : (a ++ b).takeWhile p = a ++ b.takeWhile p := by
  induction a with
  | nil => simp
  | cons c t ih =>
    simp only [List.cons_append, List.takeWhile_cons, h c (List.mem_cons_self _ _), if_true,
      List.cons.injEq, true_and]
    exact ih fun x hx => h x (List.mem_cons_of_mem _ hx)

/-- `dropWhile` skips an all-satisfying left part. -/
theorem dropWhile_append_all {p : Char → Bool} {a : Str} (b : Str)
    (h : ∀ c ∈ a, p c = true) : (a ++ b).dropWhile p = b.dropWhile p := by
  induction a with
  | nil => simp
  | cons c t ih =>
    simp only [List.cons_append, List.dropWhile_cons, h c (List.mem_cons_self _ _), if_true]
    exact ih fun x hx => h x (List.mem_cons_of_mem _ hx)

/-! ### A toolkit for `replaceAll` -/

/-- The fuel of `replaceAllGo` is irrelevant once it reaches the string
length. -/
theorem replaceAllGo_irrel (p : Char) (ps rep : Str) : ∀ (n n' : Nat) (s : Str),
    s.length ≤ n → s.length ≤ n' → replaceAllGo p ps rep n s = replaceAllGo p ps rep n' s := by
  intro n
  induction n with
  | zero =>
    intro n' s hs _
    match s with
    | [] => cases n' <;> rfl
    | c :: t => simp at hs
  | succ n ih =>
    intro n' s hs hs'
    match s with
    | [] => cases n' <;> rfl
    | c :: t =>
      match n', hs' with
      | Nat.succ n', hs' =>
        show (if (p :: ps).isPrefixOf (c :: t) then
                rep ++ replaceAllGo p ps rep n (t.drop ps.length)
              else c :: replaceAllGo p ps rep n t) =
            (if (p :: ps).isPrefixOf (c :: t) then
                rep ++ replaceAllGo p ps rep n' (t.drop ps.length)
              else c :: replaceAllGo p ps rep n' t)
        simp only [List.length_cons] at hs hs'
        by_cases hp : (p :: ps).isPrefixOf (c :: t) = true
        · rw [if_pos hp, if_pos hp,
            ih n' (t.drop ps.length) (by simp only [List.length_drop]; omega)
              (by simp only [List.length_drop]; omega)]
        · rw [if_neg hp, if_neg hp, ih n' t (by omega) (by omega)]

/-- `replaceAllNE` on the empty string. -/
theorem replaceAllNE_nil (p : Char) (ps rep : Str) : replaceAllNE p ps rep [] = [] := rfl

/-- The unfolding equation of `replaceAllNE`. -/
theorem replaceAllNE_cons (p : Char) (ps rep : Str) (c : Char) (t : Str) :
    replaceAllNE p ps rep (c :: t) =
      if (p :: ps).isPrefixOf (c :: t) then rep ++ replaceAllNE p ps rep (t.drop ps.length)
      else c :: replaceAllNE p ps rep t := by
  show replaceAllGo p ps rep (t.length + 1) (c :: t) = _
  show (if (p :: ps).isPrefixOf (c :: t) then
          rep ++ replaceAllGo p ps rep t.length (t.drop ps.length)
        else c :: replaceAllGo p ps rep t.length t) = _
  by_cases hp : (p :: ps).isPrefixOf (c :: t) = true
  · rw [if_pos hp, if_pos hp,
      replaceAllGo_irrel p ps rep t.length (t.drop ps.length).length (t.drop ps.length)
        (by simp only [List.length_drop]; omega) le_rfl]
    rfl
  · rw [if_neg hp, if_neg hp]
    rfl

/-- `interAll` with an empty replacement is the identity. -/
theorem interAll_nil : ∀ (s : Str), interAll [] s = s
  | [] => rfl
  | c :: t => by rw [interAll, interAll_nil t]; rfl

/-- Replacing a pattern by itself changes nothing (non-empty pattern). -/
theorem replaceAllNE_self (p : Char) (ps : Str) :
    ∀ (s : Str), replaceAllNE p ps (p :: ps) s = s
  | [] => rfl
  | c :: t => by
    rw [replaceAllNE_cons]
    by_cases hp : (p :: ps).isPrefixOf (c :: t) = true
    · rw [if_pos hp, replaceAllNE_self p ps (t.drop ps.length)]
      have := eq_append_of_isPrefixOf hp
      simp only [List.length_cons, List.drop_succ_cons] at this
      exact this.symm
    · rw [if_neg hp, replaceAllNE_self p ps t]
termination_by s => s.length
decreasing_by
  · simp only [List.length_cons, List.length_drop]; omega
  · simp

/-- Replacing a pattern by itself changes nothing. -/
theorem replaceAll_self (s pat : Str) : replaceAll s pat pat = s := by
  match pat with
  | [] => exact interAll_nil s
  | p :: ps => exact replaceAllNE_self p ps s

/-- Prefix transfer: a string over characters absent from the replacement
that is a prefix of a `replaceAllNE` output is a prefix of its input. -/
theorem replaceAllNE_prefix_transfer {p : Char} {ps rep : Str} (hrep : rep ≠ []) :
    ∀ (s u : Str), (∀ c ∈ u, c ∉ rep) → u.isPrefixOf (replaceAllNE p ps rep s) = true →
      u.isPrefixOf s = true
  | [], u, hu, h => by
    rw [replaceAllNE_nil] at h
    match u, h with
    | [], _ => rfl
  | c :: t, u, hu, h => by
    rw [replaceAllNE_cons] at h
    by_cases hp : (p :: ps).isPrefixOf (c :: t) = true
    · rw [if_pos hp] at h
      match u with
      | [] => rfl
      | d :: u' =>
        exfalso
        obtain ⟨r0, rep', rfl⟩ := List.exists_cons_of_ne_nil hrep
        rw [List.cons_append] at h
        simp only [List.isPrefixOf, Bool.and_eq_true, beq_iff_eq] at h
        exact hu d (List.mem_cons_self _ _) (h.1 ▸ List.mem_cons_self _ _)
    · rw [if_neg hp] at h
      match u with
      | [] => rfl
      | d :: u' =>
        simp only [List.isPrefixOf, Bool.and_eq_true, beq_iff_eq] at h ⊢
        exact ⟨h.1, replaceAllNE_prefix_transfer hrep t u'
          (fun x hx => hu x (List.mem_cons_of_mem _ hx)) h.2⟩
termination_by s => s.length
decreasing_by simp

/-- Kill: after `replaceAllNE` with a replacement avoiding the pattern's
characters, the pattern no longer occurs. -/
theorem replaceAllNE_kill {p : Char} {ps rep : Str} (hrep : rep ≠ [])
    (hk : ∀ c ∈ (p :: ps), c ∉ rep) :
    ∀ (s : Str), occurs (p :: ps) (replaceAllNE p ps rep s) = false
  | [] => rfl
  | c :: t => by
    rw [replaceAllNE_cons]
    by_cases hp : (p :: ps).isPrefixOf (c :: t) = true
    · rw [if_pos hp]
      cases hO : occurs (p :: ps) (rep ++ replaceAllNE p ps rep (t.drop ps.length)) with
      | false => rfl
      | true =>
        exact absurd (occurs_absent_append (by simp) hk hO)
          (by rw [replaceAllNE_kill hrep hk (t.drop ps.length)]; simp)
    · rw [if_neg hp, occurs_cons_eq]
      have h2 := replaceAllNE_kill hrep hk t
      rw [h2, Bool.or_false]
      cases hO : (p :: ps).isPrefixOf (c :: replaceAllNE p ps rep t) with
      | false => rfl
      | true =>
        exfalso
        simp only [List.isPrefixOf, Bool.and_eq_true, beq_iff_eq] at hO
        obtain ⟨rfl, hO2⟩ := hO
        have h3 := replaceAllNE_prefix_transfer hrep t ps
          (fun x hx => hk x (List.mem_cons_of_mem _ hx)) hO2
        exact absurd (by simp [List.isPrefixOf, h3]) hp
termination_by s => s.length
decreasing_by
  · simp only [List.length_cons, List.length_drop]; omega
  · simp

/-- Preserve: `replaceAllNE` with a replacement avoiding a non-empty word's
characters cannot create an occurrence of that word. -/
theorem replaceAllNE_preserve {p : Char} {ps rep k : Str} (hrep : rep ≠ [])
    (hk : k ≠ []) (hkr : ∀ c ∈ k, c ∉ rep) :
    ∀ (s : Str), occurs k s = false → occurs k (replaceAllNE p ps rep s) = false
  | [], hs => hs
  | c :: t, hs => by
    rw [occurs_cons_eq, Bool.or_eq_false_iff] at hs
    obtain ⟨hs1, hs2⟩ := hs
    rw [replaceAllNE_cons]
    by_cases hp : (p :: ps).isPrefixOf (c :: t) = true
    · rw [if_pos hp]
      have hdrop : occurs k (t.drop ps.length) = false := by
        cases hO : occurs k (t.drop ps.length) with
        | false => rfl
        | true => exact absurd (occurs_drop hO) (by rw [hs2]; simp)
      cases hO : occurs k (rep ++ replaceAllNE p ps rep (t.drop ps.length)) with
      | false => rfl
      | true =>
        exact absurd (occurs_absent_append hk hkr hO)
          (by rw [replaceAllNE_preserve hrep hk hkr (t.drop ps.length) hdrop]; simp)
    · rw [if_neg hp, occurs_cons_eq]
      rw [replaceAllNE_preserve hrep hk hkr t hs2, Bool.or_false]
      cases hO : k.isPrefixOf (c :: replaceAllNE p ps rep t) with
      | false => rfl
      | true =>
        exfalso
        obtain ⟨k0, k', rfl⟩ := List.exists_cons_of_ne_nil hk
        simp only [List.isPrefixOf, Bool.and_eq_true, beq_iff_eq] at hO
        obtain ⟨rfl, hO2⟩ := hO
        have h3 := replaceAllNE_prefix_transfer hrep t k'
          (fun x hx => hkr x (List.mem_cons_of_mem _ hx)) hO2
        have h4 : (k0 :: k').isPrefixOf (k0 :: t) = true := by
          simp [List.isPrefixOf, h3]
        rw [hs1] at h4
        exact Bool.false_ne_true h4
termination_by s => s.length
decreasing_by
  · simp only [List.length_cons, List.length_drop]; omega
  · simp

/-! ### A toolkit for the shortcode matcher -/

/-- The colon is not in the shortcode word class. -/
theorem isWordChar_colon : isWordChar ':' = false := by decide

/-- A word-class character is not a colon. -/
theorem wordChar_ne_colon {c : Char} (h : isWordChar c = true) : ¬ c = ':' := by
  intro hc; rw [hc] at h; exact absurd h (by decide)

/-- A word-class character is not an ampersand. -/
theorem wordChar_ne_amp {c : Char} (h : isWordChar c = true) : ¬ c = '&' := by
  intro hc; rw [hc] at h; exact absurd h (by decide)

/-- A hex-digit character is not an ampersand. -/
theorem hexDigit_ne_amp {c : Char} (h : isHexDigit c = true) : ¬ c = '&' := by
  intro hc; rw [hc] at h; exact absurd h (by decide)

/-- Head of a `takeWhile` failure run: a rejected head empties it. -/
theorem takeWhile_head_neg {p : Char → Bool} {c : Char} (l : Str) (h : p c = false) :
    (c :: l).takeWhile p = [] := by
  simp [List.takeWhile_cons, h]

/-- `dropWhile` keeps a rejected head. -/
theorem dropWhile_head_keep {p : Char → Bool} {c : Char} (l : Str) (h : p c = false) :
    (c :: l).dropWhile p = c :: l := by
  simp [List.dropWhile_cons, h]

/-- `dropWhile` output's head fails the predicate. -/
theorem dropWhile_head_neg {p : Char → Bool} : ∀ {l : Str} {e : Char} {r : Str},
    l.dropWhile p = e :: r → p e = false := by
  intro l
  induction l with
  | nil => intro e r h; simp at h
  | cons c t ih =>
    intro e r h
    rw [List.dropWhile_cons] at h
    split at h
    · exact ih h
    · next hp =>
      rw [List.cons.injEq] at h
      rw [← h.1]
      exact Bool.of_not_eq_true hp

/-- `dropWhile` over an all-accepted list is empty. -/
theorem dropWhile_all {p : Char → Bool} {l : Str} (h : ∀ c ∈ l, p c = true) :
    l.dropWhile p = [] := by
  have := dropWhile_append_all (p := p) (a := l) [] h
  simpa using this

/-- The unfolding of `matchSC` on a colon head. -/
theorem matchSC_colon_eq (r : Str) : matchSC (':' :: r) =
    (match r.dropWhile isWordChar with
     | ':' :: tail =>
       if r.takeWhile isWordChar = [] then none
       else some (':' :: r.takeWhile isWordChar ++ [':'], tail)
     | _ => none) := rfl

/-- No shortcode match starts at a non-colon character. -/
theorem matchSC_ne_colon {c : Char} (r : Str) (hc : ¬ c = ':') :
    matchSC (c :: r) = none := by
  unfold matchSC
  split
  next heq =>
    rw [List.cons.injEq] at heq
    exact absurd heq.1 hc
  next => rfl

/-- Sufficient conditions for no match at a colon: the word is empty or the
closing colon is missing. -/
theorem matchSC_none_of (r : Str)
    (h : r.takeWhile isWordChar = [] ∨ ∀ tail, ¬ r.dropWhile isWordChar = ':' :: tail) :
    matchSC (':' :: r) = none := by
  rw [matchSC_colon_eq]
  rcases h with h | h
  · split
    · rw [if_pos h]
    · rfl
  · split
    next tail heq => exact absurd heq (h tail)
    next => rfl

/-- Necessary conditions: a failed match at a colon means an empty word or
a missing closing colon. -/
theorem matchSC_none_inv {r : Str} (h : matchSC (':' :: r) = none) :
    r.takeWhile isWordChar = [] ∨ ∀ tail, ¬ r.dropWhile isWordChar = ':' :: tail := by
  rw [matchSC_colon_eq] at h
  split at h
  next tail heq =>
    split at h
    · next ht => exact Or.inl ht
    · simp at h
  next hne => exact Or.inr fun tail hc => hne tail hc

/-- The shape of a successful shortcode match: a colon, a non-empty word of
word-class characters, a closing colon, and the string decomposes around
it. -/
theorem matchSC_shape : ∀ {s : Str} {m tail : Str}, matchSC s = some (m, tail) →
    ∃ w, ¬ w = [] ∧ (∀ c ∈ w, isWordChar c = true) ∧
      m = ':' :: w ++ [':'] ∧ s = ':' :: (w ++ ':' :: tail)
  | [], m, tail, h => absurd h (by simp [matchSC])
  | c :: r, m, tail, h => by
    have hc : c = ':' := by
      by_contra hc
      rw [matchSC_ne_colon r hc] at h
      exact absurd h (by simp)
    subst hc
    rw [matchSC_colon_eq] at h
    split at h
    next tail2 heq2 =>
      split at h
      · exact absurd h (by simp)
      · next hne =>
        simp only [Option.some.injEq, Prod.mk.injEq] at h
        obtain ⟨rfl, rfl⟩ := h
        refine ⟨r.takeWhile isWordChar, hne, fun d hd => List.mem_takeWhile_imp hd, rfl, ?_⟩
        rw [List.cons.injEq]
        refine ⟨rfl, ?_⟩
        conv_lhs => rw [← List.takeWhile_append_dropWhile (p := isWordChar) (l := r)]
        rw [heq2]
    next => exact absurd h (by simp)

/-- Construction of a shortcode match from its parts, for any suffix. -/
theorem matchSC_of_parts {w : Str} (hw : ¬ w = []) (hall : ∀ c ∈ w, isWordChar c = true)
    (X : Str) : matchSC (':' :: (w ++ ':' :: X)) = some (':' :: w ++ [':'], X) := by
  have ht : (w ++ ':' :: X).takeWhile isWordChar = w := by
    rw [takeWhile_append_all _ hall, takeWhile_head_neg _ isWordChar_colon, List.append_nil]
  have hd : (w ++ ':' :: X).dropWhile isWordChar = ':' :: X := by
    rw [dropWhile_append_all _ hall, dropWhile_head_keep _ isWordChar_colon]
  rw [matchSC_colon_eq, hd, ht]
  show (if w = [] then none else some (':' :: w ++ [':'], X)) = some (':' :: w ++ [':'], X)
  rw [if_neg hw]

/-- The shortcode scan passes unchanged over a colon-free segment. -/
theorem scanSC_pass {f : Str → Str} {w : Str} (hw : ∀ c ∈ w, ¬ c = ':') (x : Str) :
    scanSC f (w ++ x) = w ++ scanSC f x := by
  induction w with
  | nil => rfl
  | cons c t ih =>
    rw [List.cons_append,
      scanSC_cons_none f (matchSC_ne_colon _ (hw c (List.mem_cons_self _ _))),
      ih fun d hd => hw d (List.mem_cons_of_mem _ hd), List.cons_append]

/-- The shortcode match list ignores a colon-free leading segment. -/
theorem scMatches_pass {w : Str} (hw : ∀ c ∈ w, ¬ c = ':') (x : Str) :
    scMatches (w ++ x) = scMatches x := by
  induction w with
  | nil => rfl
  | cons c t ih =>
    rw [List.cons_append,
      scMatches_cons_none (matchSC_ne_colon _ (hw c (List.mem_cons_self _ _))),
      ih fun d hd => hw d (List.mem_cons_of_mem _ hd)]

/-- If a colon had no shortcode match, it still has none after the scan
rewrites the rest, provided every replacement is the match itself or an
inert block (non-empty, colon-free, non-word head). -/
theorem scanSC_head_blocked {f : Str → Str}
    (Hf : ∀ s m t, matchSC s = some (m, t) →
      f m = m ∨ (¬ f m = [] ∧ (∀ c ∈ f m, ¬ c = ':') ∧
        ∀ b z, f m = b :: z → isWordChar b = false))
    {rest : Str} (h : matchSC (':' :: rest) = none) :
    matchSC (':' :: scanSC f rest) = none := by
  have hwall : ∀ c ∈ rest.takeWhile isWordChar, isWordChar c = true :=
    fun c hc => List.mem_takeWhile_imp hc
  have hscan : scanSC f rest =
      rest.takeWhile isWordChar ++ scanSC f (rest.dropWhile isWordChar) := by
    conv_lhs => rw [← List.takeWhile_append_dropWhile (p := isWordChar) (l := rest)]
    exact scanSC_pass (fun c hc => wordChar_ne_colon (hwall c hc)) _
  rw [hscan]
  apply matchSC_none_of
  rcases matchSC_none_inv h with hw0 | hnc
  · left
    rw [hw0, List.nil_append]
    cases hr2 : rest.dropWhile isWordChar with
    | nil => rw [scanSC_nil]; rfl
    | cons e r3 =>
      have he : isWordChar e = false := dropWhile_head_neg hr2
      cases hm : matchSC (e :: r3) with
      | some p =>
        obtain ⟨m2, t2⟩ := p
        rw [scanSC_cons_some f hm]
        rcases Hf _ _ _ hm with hself | ⟨hne, -, hhead⟩
        · obtain ⟨w2, -, -, hm2, -⟩ := matchSC_shape hm
          rw [hself, hm2]
          exact takeWhile_head_neg _ isWordChar_colon
        · obtain ⟨b, z, hb⟩ := List.exists_cons_of_ne_nil hne
          rw [hb, List.cons_append]
          exact takeWhile_head_neg _ (hhead b z hb)
      | none =>
        rw [scanSC_cons_none f hm]
        exact takeWhile_head_neg _ he
  · right
    intro tail hc
    cases hr2 : rest.dropWhile isWordChar with
    | nil =>
      rw [hr2, scanSC_nil, List.append_nil, dropWhile_all hwall] at hc
      simp at hc
    | cons e r3 =>
      have he : isWordChar e = false := dropWhile_head_neg hr2
      have hec : ¬ e = ':' := by
        intro hce
        exact hnc r3 (by rw [hr2, hce])
      rw [hr2, scanSC_cons_none f (matchSC_ne_colon _ hec),
        dropWhile_append_all _ hwall, dropWhile_head_keep _ he, List.cons.injEq] at hc
      exact hec hc.1

/-- Every match the shortcode scan finds in its own output is fixed by `f`
(replacements are self-fixed matches or inert blocks). -/
theorem scMatches_scanSC_fixed {f : Str → Str}
    (Hf : ∀ s m t, matchSC s = some (m, t) →
      f m = m ∨ (¬ f m = [] ∧ (∀ c ∈ f m, ¬ c = ':') ∧
        ∀ b z, f m = b :: z → isWordChar b = false)) :
    ∀ (s : Str) {m : Str}, m ∈ scMatches (scanSC f s) → f m = m
  | [], m, hm => absurd (by rw [scanSC_nil] at hm; exact hm) (by simp [scMatches, scMatchesGo])
  | c :: rest, m, hm => by
    cases hmc : matchSC (c :: rest) with
    | some p =>
      obtain ⟨m0, t0⟩ := p
      rw [scanSC_cons_some f hmc] at hm
      rcases Hf _ _ _ hmc with hself | ⟨hne, hcolfree, -⟩
      · obtain ⟨w0, hw0ne, hw0all, hm0, -⟩ := matchSC_shape hmc
        rw [hself, hm0, show (':' :: w0 ++ [':']) ++ scanSC f t0 =
          ':' :: (w0 ++ ':' :: scanSC f t0) by simp] at hm
        rw [scMatches_cons_some (matchSC_of_parts hw0ne hw0all _)] at hm
        rcases List.mem_cons.mp hm with rfl | hm2
        · exact hm0 ▸ hself
        · exact scMatches_scanSC_fixed Hf t0 hm2
      · rw [scMatches_pass hcolfree] at hm
        exact scMatches_scanSC_fixed Hf t0 hm
    | none =>
      rw [scanSC_cons_none f hmc] at hm
      by_cases hc : c = ':'
      · subst hc
        rw [scMatches_cons_none (scanSC_head_blocked Hf hmc)] at hm
        exact scMatches_scanSC_fixed Hf rest hm
      · rw [scMatches_cons_none (matchSC_ne_colon _ hc)] at hm
        exact scMatches_scanSC_fixed Hf rest hm
termination_by s => s.length
decreasing_by
  all_goals
    first
      | (simp only [List.length_cons]; omega)
      | (have hlen := matchSC_length hmc; simp only [List.length_cons] at hlen ⊢; omega)

/-! ### A toolkit for the HTML entity parser -/

/-- The semicolon is not a hex digit. -/
theorem isHexDigit_semicolon : isHexDigit ';' = false := by decide

/-- `parseRun` on the empty string fails. -/
theorem parseRun_nil : parseRun [] = none := rfl

/-- The unfolding of `parseEntity` on an entity head. -/
theorem parseEntity_x_eq (t : Str) : parseEntity ('&' :: '#' :: 'x' :: t) =
    (match t.dropWhile isHexDigit with
     | ';' :: rest =>
       if t.takeWhile isHexDigit = [] then none
       else some ('&' :: '#' :: 'x' :: (t.takeWhile isHexDigit ++ [';']), rest)
     | _ => none) := rfl

/-- No entity starts at a non-ampersand character. -/
theorem parseEntity_ne_amp {c : Char} (r : Str) (hc : ¬ c = '&') :
    parseEntity (c :: r) = none := by
  unfold parseEntity
  split
  next heq =>
    simp only [List.cons.injEq] at heq
    exact absurd heq.1 hc
  next => rfl

/-- No entity continues an ampersand that is not followed by a hash. -/
theorem parseEntity_amp_not_hash {b : Char} (z : Str) (hb : ¬ b = '#') :
    parseEntity ('&' :: b :: z) = none := by
  unfold parseEntity
  split
  next heq =>
    simp only [List.cons.injEq] at heq
    exact absurd heq.2.1 hb
  next => rfl

/-- No entity continues an ampersand-hash not followed by an x. -/
theorem parseEntity_hash_not_x {b : Char} (z : Str) (hb : ¬ b = 'x') :
    parseEntity ('&' :: '#' :: b :: z) = none := by
  unfold parseEntity
  split
  next heq =>
    simp only [List.cons.injEq] at heq
    exact absurd heq.2.2.1 hb
  next => rfl

/-- A lone ampersand is no entity. -/
theorem parseEntity_amp_nil : parseEntity ['&'] = none := by
  unfold parseEntity
  split
  next heq => simp at heq
  next => rfl

/-- An ampersand-hash pair alone is no entity. -/
theorem parseEntity_amp_hash_nil : parseEntity ['&', '#'] = none := by
  unfold parseEntity
  split
  next heq => simp at heq
  next => rfl

/-- Sufficient conditions for entity failure after the `&#x` marker: no hex
digits or no closing semicolon. -/
theorem parseEntity_x_none {t : Str}
    (h : t.takeWhile isHexDigit = [] ∨ ∀ rest, ¬ t.dropWhile isHexDigit = ';' :: rest) :
    parseEntity ('&' :: '#' :: 'x' :: t) = none := by
  rw [parseEntity_x_eq]
  rcases h with h | h
  · split
    · rw [if_pos h]
    · rfl
  · split
    next rest heq => exact absurd heq (h rest)
    next => rfl

/-- Necessary conditions for entity failure after the `&#x` marker. -/
theorem parseEntity_x_none_inv {t : Str} (h : parseEntity ('&' :: '#' :: 'x' :: t) = none) :
    t.takeWhile isHexDigit = [] ∨ ∀ rest, ¬ t.dropWhile isHexDigit = ';' :: rest := by
  rw [parseEntity_x_eq] at h
  split at h
  next rest heq =>
    split at h
    · next ht => exact Or.inl ht
    · simp at h
  next hne => exact Or.inr fun rest hc => hne rest hc

/-- A successful entity parse starts with the `&#x` marker. -/
theorem parseEntity_heads {s m rest : Str} (h : parseEntity s = some (m, rest)) :
    ∃ t, s = '&' :: '#' :: 'x' :: t := by
  unfold parseEntity at h
  split at h
  next t => exact ⟨t, rfl⟩
  next => simp at h

/-- The shape of a successful entity parse: marker, non-empty hex digits,
semicolon, and the input decomposes around it. -/
theorem parseEntity_shape {s m rest : Str} (h : parseEntity s = some (m, rest)) :
    ∃ hx, ¬ hx = [] ∧ (∀ c ∈ hx, isHexDigit c = true) ∧
      m = '&' :: '#' :: 'x' :: (hx ++ [';']) ∧ s = '&' :: '#' :: 'x' :: (hx ++ ';' :: rest) := by
  obtain ⟨t, rfl⟩ := parseEntity_heads h
  rw [parseEntity_x_eq] at h
  split at h
  next rest2 heq2 =>
    split at h
    · exact absurd h (by simp)
    · next hne =>
      simp only [Option.some.injEq, Prod.mk.injEq] at h
      obtain ⟨rfl, rfl⟩ := h
      refine ⟨t.takeWhile isHexDigit, hne, fun d hd => List.mem_takeWhile_imp hd, rfl, ?_⟩
      simp only [List.cons.injEq, true_and]
      conv_lhs => rw [← List.takeWhile_append_dropWhile (p := isHexDigit) (l := t)]
      rw [heq2]
  next => exact absurd h (by simp)

/-- Construction of an entity parse from its parts, for any suffix. -/
theorem parseEntity_of_parts {hx : Str} (hne : ¬ hx = [])
    (hall : ∀ c ∈ hx, isHexDigit c = true) (X : Str) :
    parseEntity ('&' :: '#' :: 'x' :: (hx ++ ';' :: X)) =
      some ('&' :: '#' :: 'x' :: (hx ++ [';']), X) := by
  have ht : (hx ++ ';' :: X).takeWhile isHexDigit = hx := by
    rw [takeWhile_append_all _ hall, takeWhile_head_neg _ isHexDigit_semicolon, List.append_nil]
  have hd : (hx ++ ';' :: X).dropWhile isHexDigit = ';' :: X := by
    rw [dropWhile_append_all _ hall, dropWhile_head_keep _ isHexDigit_semicolon]
  rw [parseEntity_x_eq, hd, ht]
  show (if hx = [] then none
        else some ('&' :: '#' :: 'x' :: (hx ++ [';']), X)) = _
  rw [if_neg hne]

/-- No entity run starts at a non-ampersand character. -/
theorem parseRun_ne_amp {c : Char} (r : Str) (hc : ¬ c = '&') :
    parseRun (c :: r) = none :=
  parseRun_none (parseEntity_ne_amp r hc)

/-- A failed run means a failed first entity. -/
theorem parseRun_none_inv {s : Str} (h : parseRun s = none) : parseEntity s = none := by
  cases hpe : parseEntity s with
  | none => rfl
  | some p =>
    obtain ⟨m, r⟩ := p
    rw [parseRun_some hpe] at h
    cases hr : parseRun r with
    | none => rw [hr] at h; simp at h
    | some q =>
      obtain ⟨m2, r2⟩ := q
      rw [hr] at h
      simp at h

/-- A successful run match starts with an ampersand. -/
theorem parseRun_head {s m rest : Str} (h : parseRun s = some (m, rest)) :
    ∃ z, m = '&' :: z := by
  cases hpe : parseEntity s with
  | none => rw [parseRun_none hpe] at h; exact absurd h (by simp)
  | some p =>
    obtain ⟨m1, r1⟩ := p
    obtain ⟨hx, -, -, hm1, -⟩ := parseEntity_shape hpe
    rw [parseRun_some hpe] at h
    cases hr : parseRun r1 with
    | none =>
      rw [hr] at h
      simp only [Option.some.injEq, Prod.mk.injEq] at h
      exact ⟨_, h.1 ▸ hm1⟩
    | some q =>
      obtain ⟨m2, r2⟩ := q
      rw [hr] at h
      simp only [Option.some.injEq, Prod.mk.injEq] at h
      refine ⟨'#' :: 'x' :: (hx ++ [';']) ++ m2, ?_⟩
      rw [← h.1, hm1]
      rfl

/-- A run is maximal: the remainder starts with no entity. -/
theorem parseRun_maximal : ∀ (s : Str) {m rest : Str},
    parseRun s = some (m, rest) → parseEntity rest = none
  | s, m, rest, h => by
    cases hpe : parseEntity s with
    | none => rw [parseRun_none hpe] at h; exact absurd h (by simp)
    | some p =>
      obtain ⟨m1, r1⟩ := p
      rw [parseRun_some hpe] at h
      cases hr : parseRun r1 with
      | none =>
        rw [hr] at h
        simp only [Option.some.injEq, Prod.mk.injEq] at h
        exact h.2 ▸ parseRun_none_inv hr
      | some q =>
        obtain ⟨m2, r2⟩ := q
        rw [hr] at h
        simp only [Option.some.injEq, Prod.mk.injEq] at h
        have := parseRun_maximal r1 hr
        exact h.2 ▸ this
termination_by s => s.length
decreasing_by
  exact parseEntity_length hpe

/-- Every character of a run match is an entity character. -/
theorem parseRun_chars : ∀ (s : Str) {m rest : Str}, parseRun s = some (m, rest) →
    ∀ c ∈ m, c = '&' ∨ c = '#' ∨ c = 'x' ∨ c = ';' ∨ isHexDigit c = true
  | s, m, rest, h => by
    cases hpe : parseEntity s with
    | none => rw [parseRun_none hpe] at h; exact absurd h (by simp)
    | some p =>
      obtain ⟨m1, r1⟩ := p
      have hm1chars : ∀ c ∈ m1, c = '&' ∨ c = '#' ∨ c = 'x' ∨ c = ';' ∨ isHexDigit c = true := by
        obtain ⟨hx, -, hall, hm1, -⟩ := parseEntity_shape hpe
        intro c hc
        rw [hm1] at hc
        simp only [List.mem_cons, List.mem_append, List.mem_singleton, List.not_mem_nil,
          or_false] at hc
        rcases hc with rfl | rfl | rfl | hc | rfl
        · exact Or.inl rfl
        · exact Or.inr (Or.inl rfl)
        · exact Or.inr (Or.inr (Or.inl rfl))
        · exact Or.inr (Or.inr (Or.inr (Or.inr (hall c hc))))
        · exact Or.inr (Or.inr (Or.inr (Or.inl rfl)))
      rw [parseRun_some hpe] at h
      cases hr : parseRun r1 with
      | none =>
        rw [hr] at h
        simp only [Option.some.injEq, Prod.mk.injEq] at h
        exact h.1 ▸ hm1chars
      | some q =>
        obtain ⟨m2, r2⟩ := q
        rw [hr] at h
        simp only [Option.some.injEq, Prod.mk.injEq] at h
        intro c hc
        rw [← h.1] at hc
        rcases List.mem_append.mp hc with hc1 | hc2
        · exact hm1chars c hc1
        · exact parseRun_chars r1 hr c hc2
termination_by s => s.length
decreasing_by
  exact parseEntity_length hpe

/-- An entity-run character is not a colon. -/
theorem runChar_ne_colon {c : Char}
    (h : c = '&' ∨ c = '#' ∨ c = 'x' ∨ c = ';' ∨ isHexDigit c = true) : ¬ c = ':' := by
  intro rfl_h
  subst rfl_h
  rcases h with h | h | h | h | h <;> revert h <;> decide

/-- An entity-run character is not in the shortcode word class unless it is
the letter x or a hex letter; the run head, an ampersand, never is. -/
theorem amp_not_word : isWordChar '&' = false := by decide

/-- A run match is fixed under the run parser: it parses back as one full
run with nothing left over. -/
theorem parseRun_self : ∀ (s : Str) {m rest : Str}, parseRun s = some (m, rest) →
    parseRun m = some (m, [])
  | s, m, rest, h => by
    cases hpe : parseEntity s with
    | none => rw [parseRun_none hpe] at h; exact absurd h (by simp)
    | some p =>
      obtain ⟨m1, r1⟩ := p
      obtain ⟨hx, hxne, hxall, hm1, -⟩ := parseEntity_shape hpe
      rw [parseRun_some hpe] at h
      cases hr : parseRun r1 with
      | none =>
        rw [hr] at h
        simp only [Option.some.injEq, Prod.mk.injEq] at h
        obtain ⟨rfl, -⟩ := h
        have hpe1 : parseEntity m1 = some (m1, []) := by
          rw [hm1]
          have := parseEntity_of_parts hxne hxall []
          simpa using this
        rw [parseRun_some hpe1, parseRun_nil]
      | some q =>
        obtain ⟨m2, r2⟩ := q
        rw [hr] at h
        simp only [Option.some.injEq, Prod.mk.injEq] at h
        obtain ⟨rfl, -⟩ := h
        have hih := parseRun_self r1 hr
        have hpe1 : parseEntity (m1 ++ m2) = some (m1, m2) := by
          rw [hm1]
          have := parseEntity_of_parts hxne hxall m2
          simpa using this
        rw [parseRun_some hpe1, hih]
termination_by s => s.length
decreasing_by
  exact parseEntity_length hpe

/-- Appending a non-entity remainder to a full run parses back to exactly
the run. -/
theorem parseRun_self_append : ∀ (v : Str) {rest : Str},
    parseRun v = some (v, []) → parseEntity rest = none →
    parseRun (v ++ rest) = some (v, rest)
  | v, rest, hv, hrest => by
    cases hpe : parseEntity v with
    | none => rw [parseRun_none hpe] at hv; exact absurd hv (by simp)
    | some p =>
      obtain ⟨m1, r1⟩ := p
      obtain ⟨hx, hxne, hxall, hm1, hvdec⟩ := parseEntity_shape hpe
      rw [parseRun_some hpe] at hv
      cases hr : parseRun r1 with
      | none =>
        rw [hr] at hv
        simp only [Option.some.injEq, Prod.mk.injEq] at hv
        obtain ⟨rfl, rfl⟩ := hv
        have hpe2 : parseEntity (m1 ++ rest) = some (m1, rest) := by
          rw [hm1]
          have := parseEntity_of_parts hxne hxall rest
          simpa using this
        rw [parseRun_some hpe2, parseRun_none hrest]
      | some q =>
        obtain ⟨m2, r2⟩ := q
        rw [hr] at hv
        simp only [Option.some.injEq, Prod.mk.injEq] at hv
        obtain ⟨hv1, rfl⟩ := hv
        have hr1m2 : r1 = m2 := by
          have := parseRun_decomp hr
          simpa using this
        subst hr1m2
        have hih := parseRun_self_append r1 (parseRun_self r1 hr) hrest
        have hpe2 : parseEntity (v ++ rest) = some (m1, r1 ++ rest) := by
          rw [← hv1, hm1]
          have := parseEntity_of_parts hxne hxall (r1 ++ rest)
          simpa using this
        rw [parseRun_some hpe2, hih, ← hv1]
termination_by v => v.length
decreasing_by
  have := parseEntity_length hpe
  omega

/-- The HTML scan passes unchanged over an ampersand-free segment. -/
theorem scanHTML_pass {g : Str → Str} {w : Str} (hw : ∀ c ∈ w, ¬ c = '&') (x : Str) :
    scanHTML g (w ++ x) = w ++ scanHTML g x := by
  induction w with
  | nil => rfl
  | cons c t ih =>
    rw [List.cons_append,
      scanHTML_cons_none g (parseRun_ne_amp _ (hw c (List.mem_cons_self _ _))),
      ih fun d hd => hw d (List.mem_cons_of_mem _ hd), List.cons_append]

/-- The HTML match list ignores an ampersand-free leading segment. -/
theorem htmlMatches_pass {w : Str} (hw : ∀ c ∈ w, ¬ c = '&') (x : Str) :
    htmlMatches (w ++ x) = htmlMatches x := by
  induction w with
  | nil => rfl
  | cons c t ih =>
    rw [List.cons_append,
      htmlMatches_cons_none (parseRun_ne_amp _ (hw c (List.mem_cons_self _ _))),
      ih fun d hd => hw d (List.mem_cons_of_mem _ hd)]

/-- `parseEntity` on the empty string fails. -/
theorem parseEntity_nil : parseEntity [] = none := rfl

/-- If a colon had no shortcode match, it still has none after the HTML
scan rewrites the rest, provided every replacement block is non-empty,
colon-free and starts with a non-word character. -/
theorem scanHTML_sc_head_blocked {g : Str → Str}
    (Hg : ∀ s m t, parseRun s = some (m, t) →
      ¬ g m = [] ∧ (∀ c ∈ g m, ¬ c = ':') ∧
        ∀ b z, g m = b :: z → isWordChar b = false)
    {rest : Str} (h : matchSC (':' :: rest) = none) :
    matchSC (':' :: scanHTML g rest) = none := by
  have hwall : ∀ c ∈ rest.takeWhile isWordChar, isWordChar c = true :=
    fun c hc => List.mem_takeWhile_imp hc
  have hscan : scanHTML g rest =
      rest.takeWhile isWordChar ++ scanHTML g (rest.dropWhile isWordChar) := by
    conv_lhs => rw [← List.takeWhile_append_dropWhile (p := isWordChar) (l := rest)]
    exact scanHTML_pass (fun c hc => wordChar_ne_amp (hwall c hc)) _
  rw [hscan]
  apply matchSC_none_of
  rcases matchSC_none_inv h with hw0 | hnc
  · left
    rw [hw0, List.nil_append]
    cases hr2 : rest.dropWhile isWordChar with
    | nil => rw [scanHTML_nil]; rfl
    | cons e r3 =>
      have he : isWordChar e = false := dropWhile_head_neg hr2
      cases hm : parseRun (e :: r3) with
      | some p =>
        obtain ⟨m2, t2⟩ := p
        rw [scanHTML_cons_some g hm]
        obtain ⟨hne, -, hhead⟩ := Hg _ _ _ hm
        obtain ⟨b, z, hb⟩ := List.exists_cons_of_ne_nil hne
        rw [hb, List.cons_append]
        exact takeWhile_head_neg _ (hhead b z hb)
      | none =>
        rw [scanHTML_cons_none g hm]
        exact takeWhile_head_neg _ he
  · right
    intro tail hc
    cases hr2 : rest.dropWhile isWordChar with
    | nil =>
      rw [hr2, scanHTML_nil, List.append_nil, dropWhile_all hwall] at hc
      simp at hc
    | cons e r3 =>
      have he : isWordChar e = false := dropWhile_head_neg hr2
      have hec : ¬ e = ':' := by
        intro hce
        exact hnc r3 (by rw [hr2, hce])
      rw [hr2] at hc
      cases hm : parseRun (e :: r3) with
      | some p =>
        obtain ⟨m2, t2⟩ := p
        rw [scanHTML_cons_some g hm] at hc
        obtain ⟨hne, hcolfree, hhead⟩ := Hg _ _ _ hm
        obtain ⟨b, z, hb⟩ := List.exists_cons_of_ne_nil hne
        rw [hb, List.cons_append, dropWhile_append_all _ hwall,
          dropWhile_head_keep _ (hhead b z hb), List.cons.injEq] at hc
        exact hcolfree b (by rw [hb]; exact List.mem_cons_self _ _) hc.1
      | none =>
        rw [scanHTML_cons_none g hm, dropWhile_append_all _ hwall,
          dropWhile_head_keep _ he, List.cons.injEq] at hc
        exact hec hc.1

/-- A position with no entity still has none after the HTML scan rewrites
what follows, provided every replacement block is non-empty and starts with
a character that cannot continue a partial entity. -/
theorem scanHTML_entity_none {g : Str → Str}
    (Hg : ∀ s m t, parseRun s = some (m, t) → ¬ g m = [] ∧
      ∀ b z, g m = b :: z → ¬ (b = '#' ∨ b = 'x' ∨ b = ';' ∨ isHexDigit b = true)) :
    ∀ (x : Str), parseEntity x = none → parseEntity (scanHTML g x) = none := by
  intro x hx
  match x with
  | [] => rw [scanHTML_nil]; exact parseEntity_nil
  | c :: r =>
    have hpr : parseRun (c :: r) = none := parseRun_none hx
    rw [scanHTML_cons_none g hpr]
    by_cases hc : c = '&'
    · subst hc
      match r with
      | [] => rw [scanHTML_nil]; exact parseEntity_amp_nil
      | d :: r' =>
        cases hm : parseRun (d :: r') with
        | some p =>
          obtain ⟨m', t'⟩ := p
          rw [scanHTML_cons_some g hm]
          obtain ⟨hne, hhead⟩ := Hg _ _ _ hm
          obtain ⟨b, z, hb⟩ := List.exists_cons_of_ne_nil hne
          rw [hb, List.cons_append]
          exact parseEntity_amp_not_hash _ fun hbh =>
            hhead b z hb (Or.inl hbh)
        | none =>
          rw [scanHTML_cons_none g hm]
          by_cases hd : d = '#'
          · subst hd
            match r' with
            | [] => rw [scanHTML_nil]; exact parseEntity_amp_hash_nil
            | e :: r'' =>
              cases hm2 : parseRun (e :: r'') with
              | some p =>
                obtain ⟨m'', t''⟩ := p
                rw [scanHTML_cons_some g hm2]
                obtain ⟨hne, hhead⟩ := Hg _ _ _ hm2
                obtain ⟨b, z, hb⟩ := List.exists_cons_of_ne_nil hne
                rw [hb, List.cons_append]
                exact parseEntity_hash_not_x _ fun hbx =>
                  hhead b z hb (Or.inr (Or.inl hbx))
              | none =>
                rw [scanHTML_cons_none g hm2]
                by_cases he : e = 'x'
                · subst he
                  have hxall : ∀ c ∈ r''.takeWhile isHexDigit, isHexDigit c = true :=
                    fun c hc => List.mem_takeWhile_imp hc
                  have hW : scanHTML g r'' =
                      r''.takeWhile isHexDigit ++ scanHTML g (r''.dropWhile isHexDigit) := by
                    conv_lhs =>
                      rw [← List.takeWhile_append_dropWhile (p := isHexDigit) (l := r'')]
                    exact scanHTML_pass (fun c hc => hexDigit_ne_amp (hxall c hc)) _
                  rw [hW]
                  apply parseEntity_x_none
                  cases hr4 : r''.dropWhile isHexDigit with
                  | nil =>
                    right
                    intro rest hcon
                    rw [scanHTML_nil, List.append_nil, dropWhile_all hxall] at hcon
                    simp at hcon
                  | cons e4 r5 =>
                    have he4 : isHexDigit e4 = false := dropWhile_head_neg hr4
                    by_cases hsemi : e4 = ';'
                    · left
                      have hAB := parseEntity_x_none_inv hx
                      have hA : r''.takeWhile isHexDigit = [] := by
                        rcases hAB with hA | hB
                        · exact hA
                        · exact absurd (by rw [hr4, hsemi]) (hB r5)
                      rw [hA, List.nil_append]
                      have hpr4 : parseRun (e4 :: r5) = none :=
                        parseRun_ne_amp _ (by rw [hsemi]; decide)
                      rw [scanHTML_cons_none g hpr4]
                      exact takeWhile_head_neg _ he4
                    · right
                      intro rest hcon
                      rw [dropWhile_append_all _ hxall] at hcon
                      cases hm3 : parseRun (e4 :: r5) with
                      | some p =>
                        obtain ⟨mq, tq⟩ := p
                        rw [scanHTML_cons_some g hm3] at hcon
                        obtain ⟨hne, hhead⟩ := Hg _ _ _ hm3
                        obtain ⟨b, z, hb⟩ := List.exists_cons_of_ne_nil hne
                        have hbnothex : isHexDigit b = false := by
                          cases hbx : isHexDigit b with
                          | false => rfl
                          | true => exact absurd (Or.inr (Or.inr (Or.inr hbx))) (hhead b z hb)
                        rw [hb, List.cons_append, dropWhile_head_keep _ hbnothex,
                          List.cons.injEq] at hcon
                        exact hhead b z hb (Or.inr (Or.inr (Or.inl hcon.1)))
                      | none =>
                        rw [scanHTML_cons_none g hm3, dropWhile_head_keep _ he4,
                          List.cons.injEq] at hcon
                        exact hsemi hcon.1
                · exact parseEntity_hash_not_x _ he
          · exact parseEntity_amp_not_hash _ hd
    · exact parseEntity_ne_amp _ hc

/-- Shortcode-match fixedness survives the HTML scan: if every shortcode
match of the input is fixed by `f` and every HTML replacement block is
non-empty, colon-free and non-word-headed, every shortcode match of the
HTML scan's output is fixed by `f`. -/
theorem scMatches_scanHTML_fixed {f g : Str → Str}
    (Hg : ∀ s m t, parseRun s = some (m, t) →
      ¬ g m = [] ∧ (∀ c ∈ g m, ¬ c = ':') ∧
        ∀ b z, g m = b :: z → isWordChar b = false) :
    ∀ (x : Str), (∀ m ∈ scMatches x, f m = m) →
      ∀ {m : Str}, m ∈ scMatches (scanHTML g x) → f m = m
  | [], _, m, hm =>
    absurd (by rw [scanHTML_nil] at hm; exact hm) (by simp [scMatches, scMatchesGo])
  | c :: rest, Hx, m, hm => by
    cases hpr : parseRun (c :: rest) with
    | some p =>
      obtain ⟨mh, th⟩ := p
      rw [scanHTML_cons_some g hpr] at hm
      rw [scMatches_pass (Hg _ _ _ hpr).2.1] at hm
      have hmcol : ∀ d ∈ mh, ¬ d = ':' :=
        fun d hd => runChar_ne_colon (parseRun_chars _ hpr d hd)
      have Hx' : ∀ m' ∈ scMatches th, f m' = m' := by
        intro m' hm'
        apply Hx
        rw [parseRun_decomp hpr, scMatches_pass hmcol]
        exact hm'
      exact scMatches_scanHTML_fixed Hg th Hx' hm
    | none =>
      rw [scanHTML_cons_none g hpr] at hm
      by_cases hc : c = ':'
      · subst hc
        cases hmc : matchSC (':' :: rest) with
        | some q =>
          obtain ⟨m0, t0⟩ := q
          obtain ⟨w0, hw0ne, hw0all, hm0, hrdec⟩ := matchSC_shape hmc
          have hrest : rest = w0 ++ ':' :: t0 := by
            rw [List.cons.injEq] at hrdec
            exact hrdec.2
          have hpass : scanHTML g rest = w0 ++ ':' :: scanHTML g t0 := by
            rw [hrest, show w0 ++ ':' :: t0 = (w0 ++ [':']) ++ t0 by simp,
              scanHTML_pass (w := w0 ++ [':'])]
            · simp
            · intro d hd
              rcases List.mem_append.mp hd with hd1 | hd2
              · exact wordChar_ne_amp (hw0all d hd1)
              · rw [List.mem_singleton.mp hd2]; decide
          rw [hpass] at hm
          rw [scMatches_cons_some (matchSC_of_parts hw0ne hw0all _)] at hm
          rcases List.mem_cons.mp hm with rfl | hm2
          · refine hm0 ▸ Hx m0 ?_
            rw [scMatches_cons_some hmc]
            exact List.mem_cons_self _ _
          · have Hx' : ∀ m' ∈ scMatches t0, f m' = m' := fun m' hm' =>
              Hx m' (by rw [scMatches_cons_some hmc]; exact List.mem_cons_of_mem _ hm')
            exact scMatches_scanHTML_fixed Hg t0 Hx' hm2
        | none =>
          rw [scMatches_cons_none (scanHTML_sc_head_blocked Hg hmc)] at hm
          have Hx' : ∀ m' ∈ scMatches rest, f m' = m' := fun m' hm' =>
            Hx m' (by rw [scMatches_cons_none hmc]; exact hm')
          exact scMatches_scanHTML_fixed Hg rest Hx' hm
      · rw [scMatches_cons_none (matchSC_ne_colon _ hc)] at hm
        have Hx' : ∀ m' ∈ scMatches rest, f m' = m' := fun m' hm' =>
          Hx m' (by rw [scMatches_cons_none (matchSC_ne_colon _ hc)]; exact hm')
        exact scMatches_scanHTML_fixed Hg rest Hx' hm
termination_by x => x.length
decreasing_by
  all_goals simp only [List.length_cons]
  all_goals first
    | omega
    | (have hL := parseRun_length hpr; simp only [List.length_cons] at hL; omega)
    | (rw [hrest]; simp only [List.length_append, List.length_cons]; omega)

/-- Every HTML-entity-run match the HTML scan finds in its own output is
fixed by `g`: each replacement is either a complete run that `g` fixes, or
an inert block (non-empty, ampersand-free, with a head that cannot continue
a partial entity). -/
theorem htmlMatches_scanHTML_fixed {g : Str → Str}
    (Hg : ∀ s m t, parseRun s = some (m, t) →
      (parseRun (g m) = some (g m, []) ∧ g (g m) = g m) ∨
      (¬ g m = [] ∧ (∀ c ∈ g m, ¬ c = '&') ∧
        ∀ b z, g m = b :: z → ¬ (b = '#' ∨ b = 'x' ∨ b = ';' ∨ isHexDigit b = true))) :
    ∀ (x : Str) {m : Str}, m ∈ htmlMatches (scanHTML g x) → g m = m
  | [], m, hm =>
    absurd (by rw [scanHTML_nil] at hm; exact hm) (by simp [htmlMatches, htmlMatchesGo])
  | c :: rest, m, hm => by
    have HgE : ∀ s m t, parseRun s = some (m, t) → ¬ g m = [] ∧
        ∀ b z, g m = b :: z → ¬ (b = '#' ∨ b = 'x' ∨ b = ';' ∨ isHexDigit b = true) := by
      intro s' m' t' hp
      rcases Hg s' m' t' hp with ⟨hrun, -⟩ | ⟨hne, -, hhead⟩
      · constructor
        · intro h0
          rw [h0, parseRun_nil] at hrun
          exact absurd hrun (by simp)
        · intro b z hb
          obtain ⟨z', hz'⟩ := parseRun_head hrun
          rw [hb, List.cons.injEq] at hz'
          rw [hz'.1]
          decide
      · exact ⟨hne, hhead⟩
    cases hpr : parseRun (c :: rest) with
    | some p =>
      obtain ⟨mh, th⟩ := p
      rw [scanHTML_cons_some g hpr] at hm
      rcases Hg _ _ _ hpr with ⟨hrun, hgg⟩ | ⟨-, hampf, -⟩
      · have hEnone : parseEntity (scanHTML g th) = none :=
          scanHTML_entity_none HgE th (parseRun_maximal _ hpr)
        have hfull : parseRun (g mh ++ scanHTML g th) = some (g mh, scanHTML g th) :=
          parseRun_self_append _ hrun hEnone
        obtain ⟨z0, hz0⟩ := parseRun_head hrun
        rw [hz0, List.cons_append] at hm
        rw [htmlMatches_cons_some
          (show parseRun ('&' :: (z0 ++ scanHTML g th)) = some (g mh, scanHTML g th) by
            rw [← List.cons_append, ← hz0]; exact hfull)] at hm
        rcases List.mem_cons.mp hm with rfl | hm2
        · exact hgg
        · exact htmlMatches_scanHTML_fixed Hg th hm2
      · rw [htmlMatches_pass hampf] at hm
        exact htmlMatches_scanHTML_fixed Hg th hm
    | none =>
      rw [scanHTML_cons_none g hpr] at hm
      have hout : parseEntity (c :: scanHTML g rest) = none := by
        have := scanHTML_entity_none HgE (c :: rest) (parseRun_none_inv hpr)
        rwa [scanHTML_cons_none g hpr] at this
      rw [htmlMatches_cons_none (parseRun_none hout)] at hm
      exact htmlMatches_scanHTML_fixed Hg rest hm
termination_by x => x.length
decreasing_by
  all_goals simp only [List.length_cons]
  all_goals first
    | omega
    | (have hL := parseRun_length hpr; simp only [List.length_cons] at hL; omega)

/-! ### Occurrence absence survives the scans -/

/-- A word over characters absent from every shortcode replacement that is
a prefix of the shortcode scan's output is a prefix of its input. -/
theorem isPrefixOf_scanSC {f : Str → Str} {k : Str}
    (Hk : ∀ s m t, matchSC s = some (m, t) → ¬ f m = [] ∧ ∀ c ∈ k, c ∉ f m) :
    ∀ (s u : Str), (∀ c ∈ u, c ∈ k) → u.isPrefixOf (scanSC f s) = true →
      u.isPrefixOf s = true
  | _, [], _, _ => by simp [List.isPrefixOf]
  | [], u0 :: u', hu, h => by rw [scanSC_nil] at h; exact h
  | c :: rest, u0 :: u', hu, h => by
    cases hmc : matchSC (c :: rest) with
    | some p =>
      obtain ⟨m0, t0⟩ := p
      rw [scanSC_cons_some f hmc] at h
      obtain ⟨hne, havoid⟩ := Hk _ _ _ hmc
      rcases isPrefixOf_append_cases (f m0) h with h1 | ⟨u2, hu2, -⟩
      · rw [List.isPrefixOf_iff_prefix] at h1
        obtain ⟨tl, htl⟩ := h1
        exact absurd (htl ▸ List.mem_append_left _ (List.mem_cons_self _ _))
          (havoid u0 (hu u0 (List.mem_cons_self _ _)))
      · obtain ⟨b, z, hb⟩ := List.exists_cons_of_ne_nil hne
        refine absurd (hu b ?_) fun hbk => havoid b hbk (hb ▸ List.mem_cons_self _ _)
        rw [hu2, hb]
        exact List.mem_append_left _ (List.mem_cons_self _ _)
    | none =>
      rw [scanSC_cons_none f hmc] at h
      simp only [List.isPrefixOf, Bool.and_eq_true, beq_iff_eq] at h ⊢
      exact ⟨h.1, isPrefixOf_scanSC Hk rest u'
        (fun d hd => hu d (List.mem_cons_of_mem _ hd)) h.2⟩
termination_by s => s.length
decreasing_by
  simp

/-- A non-empty word over characters absent from every shortcode
replacement that does not occur in the input does not occur in the
shortcode scan's output. -/
theorem occurs_scanSC {f : Str → Str} {k : Str}
    (Hk : ∀ s m t, matchSC s = some (m, t) → ¬ f m = [] ∧ ∀ c ∈ k, c ∉ f m)
    (hk : ¬ k = []) :
    ∀ (s : Str), occurs k (scanSC f s) = true → occurs k s = true
  | [], h => by rw [scanSC_nil] at h; exact h
  | c :: rest, h => by
    cases hmc : matchSC (c :: rest) with
    | some p =>
      obtain ⟨m0, t0⟩ := p
      rw [scanSC_cons_some f hmc] at h
      obtain ⟨-, havoid⟩ := Hk _ _ _ hmc
      have h2 := occurs_absent_append hk havoid h
      have h3 := occurs_scanSC Hk hk t0 h2
      rw [matchSC_decomp hmc]
      exact occurs_append_right m0 h3
    | none =>
      rw [scanSC_cons_none f hmc] at h
      rw [occurs_cons_eq] at h ⊢
      rcases Bool.or_eq_true_iff.mp h with h1 | h1
      · have h4 : k.isPrefixOf (scanSC f (c :: rest)) = true := by
          rw [scanSC_cons_none f hmc]; exact h1
        rw [isPrefixOf_scanSC Hk (c :: rest) k (fun d hd => hd) h4]
        rfl
      · rw [occurs_scanSC Hk hk rest h1]
        simp
termination_by s => s.length
decreasing_by
  all_goals first
    | (have hL := matchSC_length hmc; simp only [List.length_cons] at hL ⊢; omega)
    | (simp only [List.length_cons]; omega)

/-- A word over characters absent from every HTML replacement that is a
prefix of the HTML scan's output is a prefix of its input. -/
theorem isPrefixOf_scanHTML {g : Str → Str} {k : Str}
    (Hk : ∀ s m t, parseRun s = some (m, t) → ¬ g m = [] ∧ ∀ c ∈ k, c ∉ g m) :
    ∀ (s u : Str), (∀ c ∈ u, c ∈ k) → u.isPrefixOf (scanHTML g s) = true →
      u.isPrefixOf s = true
  | _, [], _, _ => by simp [List.isPrefixOf]
  | [], u0 :: u', hu, h => by rw [scanHTML_nil] at h; exact h
  | c :: rest, u0 :: u', hu, h => by
    cases hmc : parseRun (c :: rest) with
    | some p =>
      obtain ⟨m0, t0⟩ := p
      rw [scanHTML_cons_some g hmc] at h
      obtain ⟨hne, havoid⟩ := Hk _ _ _ hmc
      rcases isPrefixOf_append_cases (g m0) h with h1 | ⟨u2, hu2, -⟩
      · rw [List.isPrefixOf_iff_prefix] at h1
        obtain ⟨tl, htl⟩ := h1
        exact absurd (htl ▸ List.mem_append_left _ (List.mem_cons_self _ _))
          (havoid u0 (hu u0 (List.mem_cons_self _ _)))
      · obtain ⟨b, z, hb⟩ := List.exists_cons_of_ne_nil hne
        refine absurd (hu b ?_) fun hbk => havoid b hbk (hb ▸ List.mem_cons_self _ _)
        rw [hu2, hb]
        exact List.mem_append_left _ (List.mem_cons_self _ _)
    | none =>
      rw [scanHTML_cons_none g hmc] at h
      simp only [List.isPrefixOf, Bool.and_eq_true, beq_iff_eq] at h ⊢
      exact ⟨h.1, isPrefixOf_scanHTML Hk rest u'
        (fun d hd => hu d (List.mem_cons_of_mem _ hd)) h.2⟩
termination_by s => s.length
decreasing_by
  simp

/-- A non-empty word over characters absent from every HTML replacement
that does not occur in the input does not occur in the HTML scan's
output. -/
theorem occurs_scanHTML {g : Str → Str} {k : Str}
    (Hk : ∀ s m t, parseRun s = some (m, t) → ¬ g m = [] ∧ ∀ c ∈ k, c ∉ g m)
    (hk : ¬ k = []) :
    ∀ (s : Str), occurs k (scanHTML g s) = true → occurs k s = true
  | [], h => by rw [scanHTML_nil] at h; exact h
  | c :: rest, h => by
    cases hmc : parseRun (c :: rest) with
    | some p =>
      obtain ⟨m0, t0⟩ := p
      rw [scanHTML_cons_some g hmc] at h
      obtain ⟨-, havoid⟩ := Hk _ _ _ hmc
      have h2 := occurs_absent_append hk havoid h
      have h3 := occurs_scanHTML Hk hk t0 h2
      rw [parseRun_decomp hmc]
      exact occurs_append_right m0 h3
    | none =>
      rw [scanHTML_cons_none g hmc] at h
      rw [occurs_cons_eq] at h ⊢
      rcases Bool.or_eq_true_iff.mp h with h1 | h1
      · have h4 : k.isPrefixOf (scanHTML g (c :: rest)) = true := by
          rw [scanHTML_cons_none g hmc]; exact h1
        rw [isPrefixOf_scanHTML Hk (c :: rest) k (fun d hd => hd) h4]
        rfl
      · rw [occurs_scanHTML Hk hk rest h1]
        simp
termination_by s => s.length
decreasing_by
  all_goals first
    | (have hL := parseRun_length hmc; simp only [List.length_cons] at hL ⊢; omega)
    | (simp only [List.length_cons]; omega)

/-! ### A toolkit for the character pass -/

/-- `replaceAll` on a non-empty pattern is `replaceAllNE`. -/
theorem replaceAll_cons (s : Str) (p : Char) (ps rep : Str) :
    replaceAll s (p :: ps) rep = replaceAllNE p ps rep s := rfl

/-- An `Except` with a `some` option view is that success. -/
theorem except_eq_ok_of_toOption {x : Except TransformError Str} {w : Str}
    (h : x.toOption = some w) : x = .ok w := by
  cases x with
  | ok w' => simp only [Except.toOption, Option.some.injEq] at h; rw [h]
  | error e => simp [Except.toOption] at h

/-- An `Except` with a defined option view is some success. -/
theorem except_ok_of_isSome {x : Except TransformError Str}
    (h : x.toOption.isSome = true) : ∃ w, x = .ok w := by
  cases x with
  | ok w => exact ⟨w, rfl⟩
  | error e => simp [Except.toOption] at h

/-- A character-pass step with an occurring key and a successful transform
replaces all occurrences. -/
theorem charStep_of_ok {cat : Catalog} {maps : Maps} {tf : String} {res : Str}
    {e : Str × Str} {w : Str} (hocc : occurs e.1 res = true)
    (htr : Transform cat maps e.2 tf = .ok w) :
    charStep cat maps tf res e = replaceAll res e.1 w := by
  unfold charStep
  rw [hocc, htr]
  simp

/-- A key that is absent stays absent through the character-pass fold when
every successful replacement value avoids its characters. -/
theorem charPass_preserve {cat : Catalog} {maps : Maps} {tf : String} {k : Str}
    (hk : ¬ k = []) :
    ∀ (l : List (Str × Str)) (res : Str),
      (∀ p ∈ l, ¬ p.1 = []) →
      (∀ p ∈ l, ∀ w, Transform cat maps p.2 tf = .ok w → ¬ w = [] ∧ ∀ c ∈ k, c ∉ w) →
      occurs k res = false → occurs k (l.foldl (charStep cat maps tf) res) = false
  | [], _, _, _, h => h
  | e :: l', res, hne, hvals, h => by
    rw [List.foldl_cons]
    apply charPass_preserve hk l' _
      (fun p hp => hne p (List.mem_cons_of_mem _ hp))
      (fun p hp => hvals p (List.mem_cons_of_mem _ hp))
    cases hocc : occurs e.1 res with
    | false => rw [charStep_of_not_occurs hocc]; exact h
    | true =>
      cases htr : Transform cat maps e.2 tf with
      | error err => rw [charStep_of_error htr]; exact h
      | ok w =>
        rw [charStep_of_ok hocc htr]
        obtain ⟨hwne, havoid⟩ := hvals e (List.mem_cons_self _ _) w htr
        obtain ⟨p0, ps, hp0⟩ := List.exists_cons_of_ne_nil (hne e (List.mem_cons_self _ _))
        rw [hp0, replaceAll_cons]
        exact replaceAllNE_preserve hwne hk havoid res h

/-- After the character-pass fold, no key of a well-behaved entry list
occurs in the result: each key is killed by its own step and kept absent by
the later ones. -/
theorem charPass_kill {cat : Catalog} {maps : Maps} {tf : String} :
    ∀ (l : List (Str × Str)) (res : Str),
      (∀ p ∈ l, ¬ p.1 = []) →
      (∀ p ∈ l, ∀ q ∈ l, ∀ w, Transform cat maps q.2 tf = .ok w →
        ¬ w = [] ∧ ∀ c ∈ p.1, c ∉ w) →
      (∀ p ∈ l, (Transform cat maps p.2 tf).toOption.isSome = true) →
      ∀ p ∈ l, occurs p.1 (l.foldl (charStep cat maps tf) res) = false
  | [], _, _, _, _ => fun p hp => absurd hp (List.not_mem_nil p)
  | e :: l', res, hne, hcross, hok => by
    intro p hp
    rw [List.foldl_cons]
    rcases List.mem_cons.mp hp with rfl | hp'
    · obtain ⟨w, htr⟩ := except_ok_of_isSome (hok p (List.mem_cons_self _ _))
      have habs : occurs p.1 (charStep cat maps tf res p) = false := by
        cases hocc : occurs p.1 res with
        | false => rw [charStep_of_not_occurs hocc]; exact hocc
        | true =>
          rw [charStep_of_ok hocc htr]
          obtain ⟨hwne, havoid⟩ :=
            hcross p (List.mem_cons_self _ _) p (List.mem_cons_self _ _) w htr
          obtain ⟨p0, ps, hp0⟩ := List.exists_cons_of_ne_nil (hne p (List.mem_cons_self _ _))
          rw [hp0, replaceAll_cons]
          exact replaceAllNE_kill hwne (hp0 ▸ havoid) res
      exact charPass_preserve (hne p (List.mem_cons_self _ _)) l' _
        (fun q hq => hne q (List.mem_cons_of_mem _ hq))
        (fun q hq => hcross p (List.mem_cons_self _ _) q (List.mem_cons_of_mem _ hq))
        habs
    · exact charPass_kill l' (charStep cat maps tf res e)
        (fun q hq => hne q (List.mem_cons_of_mem _ hq))
        (fun q hq r hr => hcross q (List.mem_cons_of_mem _ hq) r (List.mem_cons_of_mem _ hr))
        (fun q hq => hok q (List.mem_cons_of_mem _ hq))
        p hp'

/-- The character pass is the identity when every entry's transform
reproduces its own key (the emoji-target case). -/
theorem charPass_fix {cat : Catalog} {maps : Maps} {tf : String}
    (h : ∀ p ∈ dedupKeys maps.emojiToName,
      (Transform cat maps p.2 tf).toOption = some p.1) (text : Str) :
    charPass cat maps tf text = text :=
  foldl_fixed fun e he => by
    cases hocc : occurs e.1 text with
    | false => exact charStep_of_not_occurs hocc
    | true =>
      rw [charStep_of_ok hocc (except_eq_ok_of_toOption (h e he))]
      exact replaceAll_self text e.1

/-- Evaluate an option-view `all` check at a known success. -/
theorem option_all_ok {x : Except TransformError Str} {w : Str} (hx : x = .ok w)
    {fb : Str → Bool} (h : x.toOption.all fb = true) : fb w = true := by
  subst hx
  simpa [Except.toOption, Option.all] using h

/-- Every character of a shortcode match is a colon or a word character. -/
theorem scMatch_chars {s m t : Str} (h : matchSC s = some (m, t)) :
    ∀ c ∈ m, c = ':' ∨ isWordChar c = true := by
  obtain ⟨w, -, hall, hm, -⟩ := matchSC_shape h
  intro c hc
  rw [hm] at hc
  simp only [List.cons_append, List.mem_cons, List.mem_append, List.mem_singleton,
    List.not_mem_nil, or_false] at hc
  rcases hc with rfl | hc | rfl
  · exact Or.inl rfl
  · exact Or.inr (hall c hc)
  · exact Or.inl rfl

/-- The shortcode replacement at a known key with a successful transform. -/
theorem scReplace_known {cat : Catalog} {maps : Maps} {f : String} {m n w : Str}
    (h1 : lookupA maps.shortcodeToName m = some n)
    (h2 : Transform cat maps n f = .ok w) : scReplace cat maps f m = w := by
  unfold scReplace
  rw [h1]
  show (match Transform cat maps n f with
        | .error _ => m
        | .ok transformed => transformed) = w
  rw [h2]

/-- The shortcode replacement at a known key with a failed transform. -/
theorem scReplace_err {cat : Catalog} {maps : Maps} {f : String} {m n : Str}
    {err : TransformError} (h1 : lookupA maps.shortcodeToName m = some n)
    (h2 : Transform cat maps n f = .error err) : scReplace cat maps f m = m := by
  unfold scReplace
  rw [h1]
  show (match Transform cat maps n f with
        | .error _ => m
        | .ok transformed => transformed) = m
  rw [h2]

/-- The HTML replacement at a known key with a successful transform. -/
theorem htmlReplace_known {cat : Catalog} {maps : Maps} {f : String} {m n w : Str}
    (h1 : lookupA maps.htmlToName m = some n)
    (h2 : Transform cat maps n f = .ok w) : htmlReplace cat maps f m = w := by
  unfold htmlReplace
  rw [h1]
  show (match Transform cat maps n f with
        | .error _ => m
        | .ok transformed => transformed) = w
  rw [h2]

/-- The HTML replacement at a known key with a failed transform. -/
theorem htmlReplace_err {cat : Catalog} {maps : Maps} {f : String} {m n : Str}
    {err : TransformError} (h1 : lookupA maps.htmlToName m = some n)
    (h2 : Transform cat maps n f = .error err) : htmlReplace cat maps f m = m := by
  unfold htmlReplace
  rw [h1]
  show (match Transform cat maps n f with
        | .error _ => m
        | .ok transformed => transformed) = m
  rw [h2]

/-- Transfer a property of the first element from a `take 1` statement. -/
theorem head_take_one {P : Char → Prop} {w : Str} (h : ∀ b ∈ w.take 1, P b)
    {b : Char} {z : Str} (hb : w = b :: z) : P b :=
  h b (by rw [hb]; simp)

/-! ### Concrete facts about the modelled catalog, per target format -/

/-- No key of the character index is empty. -/
theorem keysNE : ∀ p ∈ dedupKeys gomojiMaps.emojiToName, ¬ p.1 = [] := by decide

/-- No character of a character-index key is a colon or a word character. -/
theorem keysNotWordy : ∀ p ∈ dedupKeys gomojiMaps.emojiToName, ∀ c ∈ p.1,
    ¬ c = ':' ∧ isWordChar c = false := by decide

/-- No character of a character-index key is an entity-run character. -/
theorem keysNotRunny : ∀ p ∈ dedupKeys gomojiMaps.emojiToName, ∀ c ∈ p.1,
    ¬ c = '&' ∧ ¬ c = '#' ∧ ¬ c = 'x' ∧ ¬ c = ';' ∧ isHexDigit c = false := by decide

/-- Under the emoji target, every character-index entry transforms back to
its own key. -/
theorem keys_fix_emoji : ∀ p ∈ dedupKeys gomojiMaps.emojiToName,
    (Transform emojiMappings gomojiMaps p.2 FormatEmoji).toOption = some p.1 := by decide

/-- Under the shortcode target, every character-index entry transforms
successfully. -/
theorem keys_ok_sc : ∀ p ∈ dedupKeys gomojiMaps.emojiToName,
    (Transform emojiMappings gomojiMaps p.2 FormatShortcode).toOption.isSome = true := by decide

/-- Under the HTML target, every character-index entry transforms
successfully. -/
theorem keys_ok_html : ∀ p ∈ dedupKeys gomojiMaps.emojiToName,
    (Transform emojiMappings gomojiMaps p.2 FormatHTML).toOption.isSome = true := by decide

/-- Under the escape target, every character-index entry transforms
successfully. -/
theorem keys_ok_uni : ∀ p ∈ dedupKeys gomojiMaps.emojiToName,
    (Transform emojiMappings gomojiMaps p.2 FormatUnicode).toOption.isSome = true := by decide

/-- Under the shortcode target, every character-index value is non-empty
and avoids every character-index key's characters. -/
theorem keys_cross_sc : ∀ p ∈ dedupKeys gomojiMaps.emojiToName,
    ∀ q ∈ dedupKeys gomojiMaps.emojiToName,
    (Transform emojiMappings gomojiMaps q.2 FormatShortcode).toOption.all
      (fun w => decide (¬ w = [] ∧ ∀ c ∈ p.1, c ∉ w)) = true := by decide

/-- Under the HTML target, every character-index value is non-empty and
avoids every character-index key's characters. -/
theorem keys_cross_html : ∀ p ∈ dedupKeys gomojiMaps.emojiToName,
    ∀ q ∈ dedupKeys gomojiMaps.emojiToName,
    (Transform emojiMappings gomojiMaps q.2 FormatHTML).toOption.all
      (fun w => decide (¬ w = [] ∧ ∀ c ∈ p.1, c ∉ w)) = true := by decide

/-- Under the escape target, every character-index value is non-empty and
avoids every character-index key's characters. -/
theorem keys_cross_uni : ∀ p ∈ dedupKeys gomojiMaps.emojiToName,
    ∀ q ∈ dedupKeys gomojiMaps.emojiToName,
    (Transform emojiMappings gomojiMaps q.2 FormatUnicode).toOption.all
      (fun w => decide (¬ w = [] ∧ ∀ c ∈ p.1, c ∉ w)) = true := by decide

/-- Under the shortcode target, every shortcode-index value is non-empty
and avoids every character-index key's characters. -/
theorem scvals_avoid_sc : ∀ p ∈ dedupKeys gomojiMaps.emojiToName,
    ∀ q ∈ gomojiMaps.shortcodeToName,
    (Transform emojiMappings gomojiMaps q.2 FormatShortcode).toOption.all
      (fun w => decide (¬ w = [] ∧ ∀ c ∈ p.1, c ∉ w)) = true := by decide

/-- Under the HTML target, every shortcode-index value is non-empty and
avoids every character-index key's characters. -/
theorem scvals_avoid_html : ∀ p ∈ dedupKeys gomojiMaps.emojiToName,
    ∀ q ∈ gomojiMaps.shortcodeToName,
    (Transform emojiMappings gomojiMaps q.2 FormatHTML).toOption.all
      (fun w => decide (¬ w = [] ∧ ∀ c ∈ p.1, c ∉ w)) = true := by decide

/-- Under the escape target, every shortcode-index value is non-empty and
avoids every character-index key's characters. -/
theorem scvals_avoid_uni : ∀ p ∈ dedupKeys gomojiMaps.emojiToName,
    ∀ q ∈ gomojiMaps.shortcodeToName,
    (Transform emojiMappings gomojiMaps q.2 FormatUnicode).toOption.all
      (fun w => decide (¬ w = [] ∧ ∀ c ∈ p.1, c ∉ w)) = true := by decide

/-- Under the shortcode target, every HTML-index value is non-empty and
avoids every character-index key's characters. -/
theorem htvals_avoid_sc : ∀ p ∈ dedupKeys gomojiMaps.emojiToName,
    ∀ q ∈ gomojiMaps.htmlToName,
    (Transform emojiMappings gomojiMaps q.2 FormatShortcode).toOption.all
      (fun w => decide (¬ w = [] ∧ ∀ c ∈ p.1, c ∉ w)) = true := by decide

/-- Under the HTML target, every HTML-index value is non-empty and avoids
every character-index key's characters. -/
theorem htvals_avoid_html : ∀ p ∈ dedupKeys gomojiMaps.emojiToName,
    ∀ q ∈ gomojiMaps.htmlToName,
    (Transform emojiMappings gomojiMaps q.2 FormatHTML).toOption.all
      (fun w => decide (¬ w = [] ∧ ∀ c ∈ p.1, c ∉ w)) = true := by decide

/-- Under the escape target, every HTML-index value is non-empty and avoids
every character-index key's characters. -/
theorem htvals_avoid_uni : ∀ p ∈ dedupKeys gomojiMaps.emojiToName,
    ∀ q ∈ gomojiMaps.htmlToName,
    (Transform emojiMappings gomojiMaps q.2 FormatUnicode).toOption.all
      (fun w => decide (¬ w = [] ∧ ∀ c ∈ p.1, c ∉ w)) = true := by decide

/-- Under the emoji target, every shortcode-index value is a non-empty,
colon-free block with a non-word head. -/
theorem scvals_inertSC_emoji : ∀ q ∈ gomojiMaps.shortcodeToName,
    (Transform emojiMappings gomojiMaps q.2 FormatEmoji).toOption.all
      (fun w => decide (¬ w = [] ∧ (∀ c ∈ w, ¬ c = ':') ∧
        ∀ b ∈ w.take 1, isWordChar b = false)) = true := by decide

/-- Under the HTML target, every shortcode-index value is a non-empty,
colon-free block with a non-word head. -/
theorem scvals_inertSC_html : ∀ q ∈ gomojiMaps.shortcodeToName,
    (Transform emojiMappings gomojiMaps q.2 FormatHTML).toOption.all
      (fun w => decide (¬ w = [] ∧ (∀ c ∈ w, ¬ c = ':') ∧
        ∀ b ∈ w.take 1, isWordChar b = false)) = true := by decide

/-- Under the escape target, every shortcode-index value is a non-empty,
colon-free block with a non-word head. -/
theorem scvals_inertSC_uni : ∀ q ∈ gomojiMaps.shortcodeToName,
    (Transform emojiMappings gomojiMaps q.2 FormatUnicode).toOption.all
      (fun w => decide (¬ w = [] ∧ (∀ c ∈ w, ¬ c = ':') ∧
        ∀ b ∈ w.take 1, isWordChar b = false)) = true := by decide

/-- Under the emoji target, every HTML-index value is a non-empty,
colon-free block with a non-word head. -/
theorem htvals_inertSC_emoji : ∀ q ∈ gomojiMaps.htmlToName,
    (Transform emojiMappings gomojiMaps q.2 FormatEmoji).toOption.all
      (fun w => decide (¬ w = [] ∧ (∀ c ∈ w, ¬ c = ':') ∧
        ∀ b ∈ w.take 1, isWordChar b = false)) = true := by decide

/-- Under the HTML target, every HTML-index value is a non-empty,
colon-free block with a non-word head. -/
theorem htvals_inertSC_html : ∀ q ∈ gomojiMaps.htmlToName,
    (Transform emojiMappings gomojiMaps q.2 FormatHTML).toOption.all
      (fun w => decide (¬ w = [] ∧ (∀ c ∈ w, ¬ c = ':') ∧
        ∀ b ∈ w.take 1, isWordChar b = false)) = true := by decide

/-- Under the escape target, every HTML-index value is a non-empty,
colon-free block with a non-word head. -/
theorem htvals_inertSC_uni : ∀ q ∈ gomojiMaps.htmlToName,
    (Transform emojiMappings gomojiMaps q.2 FormatUnicode).toOption.all
      (fun w => decide (¬ w = [] ∧ (∀ c ∈ w, ¬ c = ':') ∧
        ∀ b ∈ w.take 1, isWordChar b = false)) = true := by decide

/-- Under the shortcode target, every shortcode-index entry transforms
back to its own key. -/
theorem sc_fix_sc : ∀ q ∈ gomojiMaps.shortcodeToName,
    (Transform emojiMappings gomojiMaps q.2 FormatShortcode).toOption = some q.1 := by decide

/-- Under the emoji target, every HTML-index value is a non-empty,
ampersand-free block whose head cannot continue a partial entity. -/
theorem htvals_inertH_emoji : ∀ q ∈ gomojiMaps.htmlToName,
    (Transform emojiMappings gomojiMaps q.2 FormatEmoji).toOption.all
      (fun w => decide (¬ w = [] ∧ (∀ c ∈ w, ¬ c = '&') ∧
        ∀ b ∈ w.take 1, ¬ b = '#' ∧ ¬ b = 'x' ∧ ¬ b = ';' ∧ isHexDigit b = false)) = true := by
  decide

/-- Under the shortcode target, every HTML-index value is a non-empty,
ampersand-free block whose head cannot continue a partial entity. -/
theorem htvals_inertH_sc : ∀ q ∈ gomojiMaps.htmlToName,
    (Transform emojiMappings gomojiMaps q.2 FormatShortcode).toOption.all
      (fun w => decide (¬ w = [] ∧ (∀ c ∈ w, ¬ c = '&') ∧
        ∀ b ∈ w.take 1, ¬ b = '#' ∧ ¬ b = 'x' ∧ ¬ b = ';' ∧ isHexDigit b = false)) = true := by
  decide

/-- Under the escape target, every HTML-index value is a non-empty,
ampersand-free block whose head cannot continue a partial entity. -/
theorem htvals_inertH_uni : ∀ q ∈ gomojiMaps.htmlToName,
    (Transform emojiMappings gomojiMaps q.2 FormatUnicode).toOption.all
      (fun w => decide (¬ w = [] ∧ (∀ c ∈ w, ¬ c = '&') ∧
        ∀ b ∈ w.take 1, ¬ b = '#' ∧ ¬ b = 'x' ∧ ¬ b = ';' ∧ isHexDigit b = false)) = true := by
  decide

/-- Under the HTML target, every HTML-index value is a complete entity run
that is itself a known key transforming back to itself. -/
theorem htvals_run_html : ∀ q ∈ gomojiMaps.htmlToName,
    (Transform emojiMappings gomojiMaps q.2 FormatHTML).toOption.all
      (fun w => decide (parseRun w = some (w, [])) &&
        (lookupA gomojiMaps.htmlToName w).isSome &&
        ((lookupA gomojiMaps.htmlToName w).all fun n2 =>
          decide ((Transform emojiMappings gomojiMaps n2 FormatHTML).toOption = some w))) =
      true := by
  decide

/-! ### Orchestration of the idempotence proof -/

/-- `TransformText` unfolded to its three scans. -/
theorem TransformText_eq (cat : Catalog) (maps : Maps) (t : Str) (f : String) :
    TransformText cat maps t f =
      scanHTML (htmlReplace cat maps f)
        (scanSC (scReplace cat maps f) (charPass cat maps f t)) := rfl

/-- `TransformText` is the identity under an invalid target format. -/
theorem TransformText_invalid {cat : Catalog} {maps : Maps} {f : String}
    (hf : ¬ validFormat f) (t : Str) : TransformText cat maps t f = t := by
  rw [TransformText_eq, charPass_invalid hf,
    scanSC_eq_self _ (fun m _ => scReplace_invalid hf m),
    scanHTML_eq_self _ (fun m _ => htmlReplace_invalid hf m)]

/-- The shortcode replacement under an inert-value fact: every match maps
to itself or to an inert block. -/
theorem scReplace_Hf_inert {F : String}
    (hfact : ∀ q ∈ gomojiMaps.shortcodeToName,
      (Transform emojiMappings gomojiMaps q.2 F).toOption.all
        (fun w => decide (¬ w = [] ∧ (∀ c ∈ w, ¬ c = ':') ∧
          ∀ b ∈ w.take 1, isWordChar b = false)) = true) :
    ∀ s m t, matchSC s = some (m, t) →
      scReplace emojiMappings gomojiMaps F m = m ∨
      (¬ scReplace emojiMappings gomojiMaps F m = [] ∧
        (∀ c ∈ scReplace emojiMappings gomojiMaps F m, ¬ c = ':') ∧
        ∀ b z, scReplace emojiMappings gomojiMaps F m = b :: z → isWordChar b = false) := by
  intro s m t _
  cases hlk : lookupA gomojiMaps.shortcodeToName m with
  | none => exact Or.inl (scReplace_unknown hlk)
  | some n =>
    cases htr : Transform emojiMappings gomojiMaps n F with
    | error err => exact Or.inl (scReplace_err hlk htr)
    | ok w =>
      right
      obtain ⟨h1, h2, h3⟩ :=
        of_decide_eq_true (option_all_ok htr (hfact (m, n) (lookupA_mem hlk)))
      rw [scReplace_known hlk htr]
      exact ⟨h1, h2, fun b z hb => head_take_one h3 hb⟩

/-- The HTML replacement under an inert-value fact is always inert for the
shortcode layer: known keys map to inert values, unknown runs are
themselves inert. -/
theorem htmlReplace_Hg_inertSC {F : String}
    (hfact : ∀ q ∈ gomojiMaps.htmlToName,
      (Transform emojiMappings gomojiMaps q.2 F).toOption.all
        (fun w => decide (¬ w = [] ∧ (∀ c ∈ w, ¬ c = ':') ∧
          ∀ b ∈ w.take 1, isWordChar b = false)) = true) :
    ∀ s m t, parseRun s = some (m, t) →
      ¬ htmlReplace emojiMappings gomojiMaps F m = [] ∧
      (∀ c ∈ htmlReplace emojiMappings gomojiMaps F m, ¬ c = ':') ∧
      ∀ b z, htmlReplace emojiMappings gomojiMaps F m = b :: z → isWordChar b = false := by
  intro s m t hm
  have hself : ∀ heq : htmlReplace emojiMappings gomojiMaps F m = m,
      ¬ htmlReplace emojiMappings gomojiMaps F m = [] ∧
      (∀ c ∈ htmlReplace emojiMappings gomojiMaps F m, ¬ c = ':') ∧
      ∀ b z, htmlReplace emojiMappings gomojiMaps F m = b :: z → isWordChar b = false := by
    intro heq
    rw [heq]
    obtain ⟨z0, hz0⟩ := parseRun_head hm
    refine ⟨by rw [hz0]; simp, fun c hc => runChar_ne_colon (parseRun_chars _ hm c hc), ?_⟩
    intro b z hb
    rw [hb, List.cons.injEq] at hz0
    rw [hz0.1]
    exact amp_not_word
  cases hlk : lookupA gomojiMaps.htmlToName m with
  | none => exact hself (htmlReplace_unknown hlk)
  | some n =>
    cases htr : Transform emojiMappings gomojiMaps n F with
    | error err => exact hself (htmlReplace_err hlk htr)
    | ok w =>
      obtain ⟨h1, h2, h3⟩ :=
        of_decide_eq_true (option_all_ok htr (hfact (m, n) (lookupA_mem hlk)))
      rw [htmlReplace_known hlk htr]
      exact ⟨h1, h2, fun b z hb => head_take_one h3 hb⟩

/-- The HTML replacement under an inert-value fact satisfies the run-layer
hypothesis: unknown runs are fixed complete runs, known keys map to inert
blocks. -/
theorem htmlReplace_HG_inertH {F : String}
    (hfact : ∀ q ∈ gomojiMaps.htmlToName,
      (Transform emojiMappings gomojiMaps q.2 F).toOption.all
        (fun w => decide (¬ w = [] ∧ (∀ c ∈ w, ¬ c = '&') ∧
          ∀ b ∈ w.take 1, ¬ b = '#' ∧ ¬ b = 'x' ∧ ¬ b = ';' ∧ isHexDigit b = false)) = true) :
    ∀ s m t, parseRun s = some (m, t) →
      (parseRun (htmlReplace emojiMappings gomojiMaps F m) =
          some (htmlReplace emojiMappings gomojiMaps F m, []) ∧
        htmlReplace emojiMappings gomojiMaps F
            (htmlReplace emojiMappings gomojiMaps F m) =
          htmlReplace emojiMappings gomojiMaps F m) ∨
      (¬ htmlReplace emojiMappings gomojiMaps F m = [] ∧
        (∀ c ∈ htmlReplace emojiMappings gomojiMaps F m, ¬ c = '&') ∧
        ∀ b z, htmlReplace emojiMappings gomojiMaps F m = b :: z →
          ¬ (b = '#' ∨ b = 'x' ∨ b = ';' ∨ isHexDigit b = true)) := by
  intro s m t hm
  have hself : ∀ heq : htmlReplace emojiMappings gomojiMaps F m = m,
      parseRun (htmlReplace emojiMappings gomojiMaps F m) =
          some (htmlReplace emojiMappings gomojiMaps F m, []) ∧
        htmlReplace emojiMappings gomojiMaps F
            (htmlReplace emojiMappings gomojiMaps F m) =
          htmlReplace emojiMappings gomojiMaps F m := by
    intro heq
    rw [heq]
    exact ⟨parseRun_self _ hm, heq⟩
  cases hlk : lookupA gomojiMaps.htmlToName m with
  | none => exact Or.inl (hself (htmlReplace_unknown hlk))
  | some n =>
    cases htr : Transform emojiMappings gomojiMaps n F with
    | error err => exact Or.inl (hself (htmlReplace_err hlk htr))
    | ok w =>
      right
      obtain ⟨h1, h2, h3⟩ :=
        of_decide_eq_true (option_all_ok htr (hfact (m, n) (lookupA_mem hlk)))
      rw [htmlReplace_known hlk htr]
      refine ⟨h1, h2, fun b z hb => ?_⟩
      obtain ⟨hb1, hb2, hb3, hb4⟩ := head_take_one h3 hb
      intro hcon
      rcases hcon with hc | hc | hc | hc
      · exact hb1 hc
      · exact hb2 hc
      · exact hb3 hc
      · rw [hb4] at hc; exact Bool.false_ne_true hc

/-- The HTML replacement under the HTML target satisfies the run-layer
hypothesis through the run-valued fact: known keys map to complete runs
that are again known and self-reproducing. -/
theorem htmlReplace_HG_run :
    ∀ s m t, parseRun s = some (m, t) →
      (parseRun (htmlReplace emojiMappings gomojiMaps FormatHTML m) =
          some (htmlReplace emojiMappings gomojiMaps FormatHTML m, []) ∧
        htmlReplace emojiMappings gomojiMaps FormatHTML
            (htmlReplace emojiMappings gomojiMaps FormatHTML m) =
          htmlReplace emojiMappings gomojiMaps FormatHTML m) ∨
      (¬ htmlReplace emojiMappings gomojiMaps FormatHTML m = [] ∧
        (∀ c ∈ htmlReplace emojiMappings gomojiMaps FormatHTML m, ¬ c = '&') ∧
        ∀ b z, htmlReplace emojiMappings gomojiMaps FormatHTML m = b :: z →
          ¬ (b = '#' ∨ b = 'x' ∨ b = ';' ∨ isHexDigit b = true)) := by
  intro s m t hm
  have hself : ∀ heq : htmlReplace emojiMappings gomojiMaps FormatHTML m = m,
      parseRun (htmlReplace emojiMappings gomojiMaps FormatHTML m) =
          some (htmlReplace emojiMappings gomojiMaps FormatHTML m, []) ∧
        htmlReplace emojiMappings gomojiMaps FormatHTML
            (htmlReplace emojiMappings gomojiMaps FormatHTML m) =
          htmlReplace emojiMappings gomojiMaps FormatHTML m := by
    intro heq
    rw [heq]
    exact ⟨parseRun_self _ hm, heq⟩
  cases hlk : lookupA gomojiMaps.htmlToName m with
  | none => exact Or.inl (hself (htmlReplace_unknown hlk))
  | some n =>
    cases htr : Transform emojiMappings gomojiMaps n FormatHTML with
    | error err => exact Or.inl (hself (htmlReplace_err hlk htr))
    | ok w =>
      left
      have hb := option_all_ok htr (htvals_run_html (m, n) (lookupA_mem hlk))
      rw [Bool.and_eq_true, Bool.and_eq_true] at hb
      obtain ⟨⟨hb1, hb2⟩, hb3⟩ := hb
      have hrun : parseRun w = some (w, []) := of_decide_eq_true hb1
      obtain ⟨n2, hn2⟩ := Option.isSome_iff_exists.mp hb2
      have hfix : (Transform emojiMappings gomojiMaps n2 FormatHTML).toOption = some w := by
        rw [hn2] at hb3
        simpa [Option.all] using hb3
      have hgw : htmlReplace emojiMappings gomojiMaps FormatHTML w = w :=
        htmlReplace_known hn2 (except_eq_ok_of_toOption hfix)
      rw [htmlReplace_known hlk htr]
      exact ⟨hrun, hgw⟩

/-- The shortcode replacement's output always avoids a key whose
characters are neither colons nor word characters, under an avoid-valued
fact. -/
theorem scReplace_avoid {F : String} {k : Str}
    (hknw : ∀ c ∈ k, ¬ c = ':' ∧ isWordChar c = false)
    (hfact : ∀ q ∈ gomojiMaps.shortcodeToName,
      (Transform emojiMappings gomojiMaps q.2 F).toOption.all
        (fun w => decide (¬ w = [] ∧ ∀ c ∈ k, c ∉ w)) = true) :
    ∀ s m t, matchSC s = some (m, t) →
      ¬ scReplace emojiMappings gomojiMaps F m = [] ∧
        ∀ c ∈ k, c ∉ scReplace emojiMappings gomojiMaps F m := by
  intro s m t hm
  have hself : ∀ heq : scReplace emojiMappings gomojiMaps F m = m,
      ¬ scReplace emojiMappings gomojiMaps F m = [] ∧
        ∀ c ∈ k, c ∉ scReplace emojiMappings gomojiMaps F m := by
    intro heq
    rw [heq]
    obtain ⟨w0, -, -, hm0, -⟩ := matchSC_shape hm
    refine ⟨by rw [hm0]; simp, fun c hck hcm => ?_⟩
    obtain ⟨hc1, hc2⟩ := hknw c hck
    rcases scMatch_chars hm c hcm with hc | hc
    · exact hc1 hc
    · rw [hc2] at hc; exact Bool.false_ne_true hc
  cases hlk : lookupA gomojiMaps.shortcodeToName m with
  | none => exact hself (scReplace_unknown hlk)
  | some n =>
    cases htr : Transform emojiMappings gomojiMaps n F with
    | error err => exact hself (scReplace_err hlk htr)
    | ok w =>
      obtain ⟨h1, h2⟩ :=
        of_decide_eq_true (option_all_ok htr (hfact (m, n) (lookupA_mem hlk)))
      rw [scReplace_known hlk htr]
      exact ⟨h1, h2⟩

/-- The HTML replacement's output always avoids a key whose characters are
no entity-run characters, under an avoid-valued fact. -/
theorem htmlReplace_avoid {F : String} {k : Str}
    (hknr : ∀ c ∈ k, ¬ c = '&' ∧ ¬ c = '#' ∧ ¬ c = 'x' ∧ ¬ c = ';' ∧ isHexDigit c = false)
    (hfact : ∀ q ∈ gomojiMaps.htmlToName,
      (Transform emojiMappings gomojiMaps q.2 F).toOption.all
        (fun w => decide (¬ w = [] ∧ ∀ c ∈ k, c ∉ w)) = true) :
    ∀ s m t, parseRun s = some (m, t) →
      ¬ htmlReplace emojiMappings gomojiMaps F m = [] ∧
        ∀ c ∈ k, c ∉ htmlReplace emojiMappings gomojiMaps F m := by
  intro s m t hm
  have hself : ∀ heq : htmlReplace emojiMappings gomojiMaps F m = m,
      ¬ htmlReplace emojiMappings gomojiMaps F m = [] ∧
        ∀ c ∈ k, c ∉ htmlReplace emojiMappings gomojiMaps F m := by
    intro heq
    rw [heq]
    obtain ⟨z0, hz0⟩ := parseRun_head hm
    refine ⟨by rw [hz0]; simp, fun c hck hcm => ?_⟩
    obtain ⟨hc1, hc2, hc3, hc4, hc5⟩ := hknr c hck
    rcases parseRun_chars _ hm c hcm with hc | hc | hc | hc | hc
    · exact hc1 hc
    · exact hc2 hc
    · exact hc3 hc
    · exact hc4 hc
    · rw [hc5] at hc; exact Bool.false_ne_true hc
  cases hlk : lookupA gomojiMaps.htmlToName m with
  | none => exact hself (htmlReplace_unknown hlk)
  | some n =>
    cases htr : Transform emojiMappings gomojiMaps n F with
    | error err => exact hself (htmlReplace_err hlk htr)
    | ok w =>
      obtain ⟨h1, h2⟩ :=
        of_decide_eq_true (option_all_ok htr (hfact (m, n) (lookupA_mem hlk)))
      rw [htmlReplace_known hlk htr]
      exact ⟨h1, h2⟩

/-- Under the shortcode target, the shortcode replacement fixes every
string. -/
theorem scReplace_fix_all (m : Str) :
    scReplace emojiMappings gomojiMaps FormatShortcode m = m := by
  cases hlk : lookupA gomojiMaps.shortcodeToName m with
  | none => exact scReplace_unknown hlk
  | some n =>
    have htr := except_eq_ok_of_toOption (sc_fix_sc (m, n) (lookupA_mem hlk))
    exact scReplace_known hlk htr

/-- After a full `TransformText`, no character-index key occurs in the
output, for any target format whose replacement values avoid all key
characters. -/
theorem keys_absent_tt {F : String}
    (hok : ∀ p ∈ dedupKeys gomojiMaps.emojiToName,
      (Transform emojiMappings gomojiMaps p.2 F).toOption.isSome = true)
    (hcross : ∀ p ∈ dedupKeys gomojiMaps.emojiToName,
      ∀ q ∈ dedupKeys gomojiMaps.emojiToName,
      (Transform emojiMappings gomojiMaps q.2 F).toOption.all
        (fun w => decide (¬ w = [] ∧ ∀ c ∈ p.1, c ∉ w)) = true)
    (hscav : ∀ p ∈ dedupKeys gomojiMaps.emojiToName,
      ∀ q ∈ gomojiMaps.shortcodeToName,
      (Transform emojiMappings gomojiMaps q.2 F).toOption.all
        (fun w => decide (¬ w = [] ∧ ∀ c ∈ p.1, c ∉ w)) = true)
    (hhtav : ∀ p ∈ dedupKeys gomojiMaps.emojiToName,
      ∀ q ∈ gomojiMaps.htmlToName,
      (Transform emojiMappings gomojiMaps q.2 F).toOption.all
        (fun w => decide (¬ w = [] ∧ ∀ c ∈ p.1, c ∉ w)) = true)
    (t : Str) :
    ∀ p ∈ dedupKeys gomojiMaps.emojiToName,
      occurs p.1 (TransformText emojiMappings gomojiMaps t F) = false := by
  intro p hp
  rw [TransformText_eq]
  have h1 : occurs p.1 (charPass emojiMappings gomojiMaps F t) = false :=
    charPass_kill (dedupKeys gomojiMaps.emojiToName) t keysNE
      (fun a ha b hb w htr => of_decide_eq_true (option_all_ok htr (hcross a ha b hb)))
      hok p hp
  have HkS := scReplace_avoid (F := F) (keysNotWordy p hp) (fun q hq => hscav p hp q hq)
  have h2 : occurs p.1 (scanSC (scReplace emojiMappings gomojiMaps F)
      (charPass emojiMappings gomojiMaps F t)) = false := by
    cases hO : occurs p.1 (scanSC (scReplace emojiMappings gomojiMaps F)
        (charPass emojiMappings gomojiMaps F t)) with
    | false => rfl
    | true =>
      exact absurd (occurs_scanSC HkS (keysNE p hp) _ hO) (by rw [h1]; simp)
  have HkH := htmlReplace_avoid (F := F) (keysNotRunny p hp) (fun q hq => hhtav p hp q hq)
  cases hO : occurs p.1 (scanHTML (htmlReplace emojiMappings gomojiMaps F)
      (scanSC (scReplace emojiMappings gomojiMaps F)
        (charPass emojiMappings gomojiMaps F t))) with
  | false => rfl
  | true =>
    exact absurd (occurs_scanHTML HkH (keysNE p hp) _ hO) (by rw [h2]; simp)

/-- Re-running the emoji-target bulk transform changes nothing. -/
theorem tt_fixed_emoji (t : Str) :
    TransformText emojiMappings gomojiMaps
        (TransformText emojiMappings gomojiMaps t FormatEmoji) FormatEmoji =
      TransformText emojiMappings gomojiMaps t FormatEmoji := by
  have Hf := scReplace_Hf_inert scvals_inertSC_emoji
  have HgSC := htmlReplace_Hg_inertSC htvals_inertSC_emoji
  have HG := htmlReplace_HG_inertH htvals_inertH_emoji
  have hscfix : ∀ m ∈ scMatches (TransformText emojiMappings gomojiMaps t FormatEmoji),
      scReplace emojiMappings gomojiMaps FormatEmoji m = m := by
    rw [TransformText_eq]
    exact fun m hm => scMatches_scanHTML_fixed HgSC _
      (fun m' hm' => scMatches_scanSC_fixed Hf _ hm') hm
  have hhtfix : ∀ m ∈ htmlMatches (TransformText emojiMappings gomojiMaps t FormatEmoji),
      htmlReplace emojiMappings gomojiMaps FormatEmoji m = m := by
    rw [TransformText_eq]
    exact fun m hm => htmlMatches_scanHTML_fixed HG _ hm
  conv_lhs => rw [TransformText_eq]
  rw [charPass_fix keys_fix_emoji, scanSC_eq_self _ hscfix, scanHTML_eq_self _ hhtfix]

/-- Re-running the shortcode-target bulk transform changes nothing. -/
theorem tt_fixed_sc (t : Str) :
    TransformText emojiMappings gomojiMaps
        (TransformText emojiMappings gomojiMaps t FormatShortcode) FormatShortcode =
      TransformText emojiMappings gomojiMaps t FormatShortcode := by
  have HG := htmlReplace_HG_inertH htvals_inertH_sc
  have habs := keys_absent_tt keys_ok_sc keys_cross_sc scvals_avoid_sc htvals_avoid_sc t
  have hhtfix : ∀ m ∈ htmlMatches (TransformText emojiMappings gomojiMaps t FormatShortcode),
      htmlReplace emojiMappings gomojiMaps FormatShortcode m = m := by
    rw [TransformText_eq]
    exact fun m hm => htmlMatches_scanHTML_fixed HG _ hm
  conv_lhs => rw [TransformText_eq]
  rw [charPass_no_occurs habs, scanSC_eq_self _ (fun m _ => scReplace_fix_all m),
    scanHTML_eq_self _ hhtfix]

/-- Re-running the HTML-target bulk transform changes nothing. -/
theorem tt_fixed_html (t : Str) :
    TransformText emojiMappings gomojiMaps
        (TransformText emojiMappings gomojiMaps t FormatHTML) FormatHTML =
      TransformText emojiMappings gomojiMaps t FormatHTML := by
  have Hf := scReplace_Hf_inert scvals_inertSC_html
  have HgSC := htmlReplace_Hg_inertSC htvals_inertSC_html
  have habs := keys_absent_tt keys_ok_html keys_cross_html scvals_avoid_html htvals_avoid_html t
  have hscfix : ∀ m ∈ scMatches (TransformText emojiMappings gomojiMaps t FormatHTML),
      scReplace emojiMappings gomojiMaps FormatHTML m = m := by
    rw [TransformText_eq]
    exact fun m hm => scMatches_scanHTML_fixed HgSC _
      (fun m' hm' => scMatches_scanSC_fixed Hf _ hm') hm
  have hhtfix : ∀ m ∈ htmlMatches (TransformText emojiMappings gomojiMaps t FormatHTML),
      htmlReplace emojiMappings gomojiMaps FormatHTML m = m := by
    rw [TransformText_eq]
    exact fun m hm => htmlMatches_scanHTML_fixed htmlReplace_HG_run _ hm
  conv_lhs => rw [TransformText_eq]
  rw [charPass_no_occurs habs, scanSC_eq_self _ hscfix, scanHTML_eq_self _ hhtfix]

/-- Re-running the escape-target bulk transform changes nothing. -/
theorem tt_fixed_uni (t : Str) :
    TransformText emojiMappings gomojiMaps
        (TransformText emojiMappings gomojiMaps t FormatUnicode) FormatUnicode =
      TransformText emojiMappings gomojiMaps t FormatUnicode := by
  have Hf := scReplace_Hf_inert scvals_inertSC_uni
  have HgSC := htmlReplace_Hg_inertSC htvals_inertSC_uni
  have HG := htmlReplace_HG_inertH htvals_inertH_uni
  have habs := keys_absent_tt keys_ok_uni keys_cross_uni scvals_avoid_uni htvals_avoid_uni t
  have hscfix : ∀ m ∈ scMatches (TransformText emojiMappings gomojiMaps t FormatUnicode),
      scReplace emojiMappings gomojiMaps FormatUnicode m = m := by
    rw [TransformText_eq]
    exact fun m hm => scMatches_scanHTML_fixed HgSC _
      (fun m' hm' => scMatches_scanSC_fixed Hf _ hm') hm
  have hhtfix : ∀ m ∈ htmlMatches (TransformText emojiMappings gomojiMaps t FormatUnicode),
      htmlReplace emojiMappings gomojiMaps FormatUnicode m = m := by
    rw [TransformText_eq]
    exact fun m hm => htmlMatches_scanHTML_fixed HG _ hm
  conv_lhs => rw [TransformText_eq]
  rw [charPass_no_occurs habs, scanSC_eq_self _ hscfix, scanHTML_eq_self _ hhtfix]

/-- C7: bulk transformation is idempotent: for every text `t` and every
format `F`, `transformText(transformText(t, F), F)` equals
`transformText(t, F)`. -/
theorem C7_transformText_idempotent (t : Str) (F : String) :
    TransformText emojiMappings gomojiMaps
        (TransformText emojiMappings gomojiMaps t F) F =
      TransformText emojiMappings gomojiMaps t F := by
  by_cases hv : validFormat F
  · rcases hv with rfl | rfl | rfl | rfl
    · exact tt_fixed_emoji t
    · exact tt_fixed_sc t
    · exact tt_fixed_html t
    · exact tt_fixed_uni t
  · rw [TransformText_invalid hv, TransformText_invalid hv]

end Gomoji
